import Mathlib

/-!
Shallow embedding of the doubly-ended queue of `src/deque/src/deque.rs`.

The Rust code stores nodes in `Rc<RefCell<DequeNode<E>>>` cells whose `next`
and `prev` fields are both strong (`Option<Rc<...>>`).  We model the set of
`Rc` allocations as an explicit heap: a list of cells indexed by address,
where `none` marks a freed cell.  The deque state carries this heap together
with the `head`/`tail`/`size` fields of the Rust `Deque` struct.  Strong
reference counts are not stored; they are computed from the state as the
number of references (the deque's `head` and `tail` plus the `next`/`prev`
fields of all live cells) pointing at an address, which is exactly the
number of `Rc` handles the Rust program holds outside of local variables.
-/

namespace RustDust

/-- Embedding of `struct DequeNode<E>`: the two links are heap addresses. -/
structure DequeNode (E : Type) where
  next : Option Nat
  prev : Option Nat
  elem : E
deriving DecidableEq

/-- The heap of `Rc<RefCell<DequeNode<E>>>` allocations; index = address,
`none` = freed cell. -/
abbrev Heap (E : Type) := List (Option (DequeNode E))

variable {E : Type}

/-- Dereference an address: `none` if the address is out of range or freed. -/
def getNode (hp : Heap E) (a : Nat) : Option (DequeNode E) :=
  hp.getD a none

/-- Write the `prev` field of the cell at address `a` (no-op on a dead cell,
which never happens in reachable states). -/
def setPrev (hp : Heap E) (a : Nat) (p : Option Nat) : Heap E :=
  match getNode hp a with
  | none => hp
  | some n => hp.set a (some { n with prev := p })

/-- Write the `next` field of the cell at address `a`. -/
def setNext (hp : Heap E) (a : Nat) (nx : Option Nat) : Heap E :=
  match getNode hp a with
  | none => hp
  | some n => hp.set a (some { n with next := nx })

/-- Embedding of `struct Deque<E>`, together with the ambient heap of its
`Rc` allocations. -/
structure Deque (E : Type) where
  heap : Heap E
  head : Option Nat
  tail : Option Nat
  size : Nat
deriving DecidableEq

/-- `Deque::new`. -/
def new : Deque E :=
  { heap := [], head := none, tail := none, size := 0 }

/-- Modelled from the spec: the source file has no `len()` method (its tests
read the `size` field directly); the spec defines `len()` as returning
`size`. -/
def len (d : Deque E) : Nat := d.size

/-- `Deque::push` (insert at the head).  A fresh cell is allocated at the
end of the heap. -/
def push (e : E) (d : Deque E) : Deque E :=
  match d.head with
  | none =>
      let a := d.heap.length
      { heap := d.heap ++ [some { next := none, prev := none, elem := e }],
        head := some a, tail := some a, size := d.size + 1 }
  | some oldHead =>
      let a := d.heap.length
      let hp := d.heap ++ [some { next := some oldHead, prev := none, elem := e }]
      { heap := setPrev hp oldHead (some a),
        head := some a, tail := d.tail, size := d.size + 1 }

/-- `Deque::push_back` (insert at the back). -/
def push_back (e : E) (d : Deque E) : Deque E :=
  match d.tail with
  | none =>
      let a := d.heap.length
      { heap := d.heap ++ [some { next := none, prev := none, elem := e }],
        head := some a, tail := some a, size := d.size + 1 }
  | some oldTail =>
      let a := d.heap.length
      let hp := d.heap ++ [some { next := none, prev := some oldTail, elem := e }]
      { heap := setNext hp oldTail (some a),
        head := d.head, tail := some a, size := d.size + 1 }

/-- The state of `Deque::pop` at the moment `Rc::try_unwrap(old_head)` runs:
`head` has been moved out, `old_head.next` has been taken, the new head's
`prev` has been cleared (or `tail` nulled when no node is left) and `size`
decremented.  Returns the popped address, the node value and that state;
`none` when the deque is empty. -/
def popMid (d : Deque E) : Option (Nat × DequeNode E × Deque E) :=
  match d.head with
  | none => none
  | some a =>
      match getNode d.heap a with
      | none => none
      | some n =>
          let hp1 := d.heap.set a (some { n with next := none })
          match n.next with
          | some b =>
              some (a, n,
                { heap := setPrev hp1 b none, head := some b,
                  tail := d.tail, size := d.size - 1 })
          | none =>
              some (a, n,
                { heap := hp1, head := none, tail := none, size := d.size - 1 })

/-- `Deque::pop` (pop off the head): the detached cell is freed by
`Rc::try_unwrap(..).into_inner()` and its element returned. -/
def pop (d : Deque E) : Option E × Deque E :=
  match popMid d with
  | none => (none, d)
  | some (a, n, d1) => (some n.elem, { d1 with heap := d1.heap.set a none })

/-- The state of `Deque::pop_back` at the `Rc::try_unwrap(old_tail)` call. -/
def popBackMid (d : Deque E) : Option (Nat × DequeNode E × Deque E) :=
  match d.tail with
  | none => none
  | some a =>
      match getNode d.heap a with
      | none => none
      | some n =>
          let hp1 := d.heap.set a (some { n with prev := none })
          match n.prev with
          | some b =>
              some (a, n,
                { heap := setNext hp1 b none, head := d.head,
                  tail := some b, size := d.size - 1 })
          | none =>
              some (a, n,
                { heap := hp1, head := none, tail := none, size := d.size - 1 })

/-- `Deque::pop_back` (pop off the back). -/
def pop_back (d : Deque E) : Option E × Deque E :=
  match popBackMid d with
  | none => (none, d)
  | some (a, n, d1) => (some n.elem, { d1 with heap := d1.heap.set a none })

/-- `impl Iterator for Deque`: `next` is literally `self.pop()`. -/
def next (d : Deque E) : Option E × Deque E := pop d

/-- `impl DoubleEndedIterator for Deque`: `next_back` is literally
`self.pop_back()`. -/
def next_back (d : Deque E) : Option E × Deque E := pop_back d

/-- Number of references a single node's fields hold to address `a`. -/
def refsFromNode (n : DequeNode E) (a : Nat) : Nat :=
  (if n.next = some a then 1 else 0) + (if n.prev = some a then 1 else 0)

/-- Number of references to address `a` held in the fields of live heap
cells. -/
def heapRefs (hp : Heap E) (a : Nat) : Nat :=
  ((List.range hp.length).map fun i =>
    match getNode hp i with
    | some n => refsFromNode n a
    | none => 0).sum

/-- Strong reference count of address `a` in state `d` (deque roots plus
heap cells); local `Rc` variables are accounted for separately. -/
def refsTo (d : Deque E) (a : Nat) : Nat :=
  (if d.head = some a then 1 else 0) + (if d.tail = some a then 1 else 0) +
    heapRefs d.heap a

/-- Strong count of the popped cell at the `Rc::try_unwrap` call in
`Deque::pop`: the local `old_head` binding plus every reference remaining
in the state. -/
def popUnwrapCount (d : Deque E) : Option Nat :=
  (popMid d).map fun x => 1 + refsTo x.2.2 x.1

/-- Strong count of the popped cell at the `Rc::try_unwrap` call in
`Deque::pop_back`. -/
def popBackUnwrapCount (d : Deque E) : Option Nat :=
  (popBackMid d).map fun x => 1 + refsTo x.2.2 x.1

/-- Whether the `.ok().unwrap()` in `Deque::pop` would panic: `Rc::try_unwrap`
fails exactly when the strong count at the call is not 1. -/
def popPanics (d : Deque E) : Bool :=
  match popUnwrapCount d with
  | some c => c != 1
  | none => false

/-- Whether the `.ok().unwrap()` in `Deque::pop_back` would panic. -/
def popBackPanics (d : Deque E) : Bool :=
  match popBackUnwrapCount d with
  | some c => c != 1
  | none => false

/-- Number of live (still allocated) cells in the heap. -/
def liveCount (hp : Heap E) : Nat :=
  (hp.map fun c => if c.isSome then 1 else 0).sum

/-- Dropping the `Deque` struct drops its `head` and `tail` `Rc` handles.
`Deque` has no `Drop` implementation, so this is all the teardown does
directly; cells are freed only if their strong count reaches zero. -/
def dropRoots (d : Deque E) : Deque E :=
  { d with head := none, tail := none }

/-- One reference-counting collection step for a single cell: a live cell
whose strong count is zero is freed. -/
def sweepCell (d : Deque E) (i : Nat) : Option (DequeNode E) :=
  match getNode d.heap i with
  | none => none
  | some n => if refsTo d i = 0 then none else some n

/-- One collection sweep over the whole heap. -/
def sweepOnce (d : Deque E) : Deque E :=
  { d with heap := (List.range d.heap.length).map (sweepCell d) }

/-- Iterated collection sweeps. -/
def sweepN : Nat → Deque E → Deque E
  | 0, d => d
  | k + 1, d => sweepN k (sweepOnce d)

/-- The heap after the `Deque` is dropped: the two root `Rc` handles are
released and reference counting then frees exactly the cells whose strong
count transitively reaches zero (one sweep per cell always suffices). -/
def dropDeque (d : Deque E) : Heap E :=
  (sweepN d.heap.length (dropRoots d)).heap

/-- One step of the forward walk used by the structural invariant: follow
the `next` link of the current node. -/
def stepNext (hp : Heap E) (o : Option Nat) : Option Nat :=
  match o with
  | none => none
  | some a =>
      match getNode hp a with
      | none => none
      | some n => n.next

/-- One step of the backward walk: follow the `prev` link. -/
def stepPrev (hp : Heap E) (o : Option Nat) : Option Nat :=
  match o with
  | none => none
  | some a =>
      match getNode hp a with
      | none => none
      | some n => n.prev

/-- Pop `k` times off the head, collecting the results. -/
def popList (k : Nat) (d : Deque E) : List (Option E) × Deque E :=
  match k with
  | 0 => ([], d)
  | k + 1 =>
      let r := popList k (pop d).2
      ((pop d).1 :: r.1, r.2)

/-- Pop `k` times off the back, collecting the results. -/
def popBackList (k : Nat) (d : Deque E) : List (Option E) × Deque E :=
  match k with
  | 0 => ([], d)
  | k + 1 =>
      let r := popBackList k (pop_back d).2
      ((pop_back d).1 :: r.1, r.2)

/-- Push each value of `vs`, in order, at the front. -/
def pushAll (vs : List E) (d : Deque E) : Deque E :=
  vs.foldl (fun d v => push v d) d

/-- Push each value of `vs`, in order, at the back. -/
def pushBackAll (vs : List E) (d : Deque E) : Deque E :=
  vs.foldl (fun d v => push_back v d) d

/-- A public mutating operation of the deque. -/
inductive DequeOp (E : Type) where
  | pushFront (e : E)
  | pushBack (e : E)
  | popFront
  | popBack

/-- Run a sequence of operations, returning the final state, the number of
pushes and the number of successful (non-empty-result) pops. -/
def runCounts (d : Deque E) : List (DequeOp E) → Deque E × Nat × Nat
  | [] => (d, 0, 0)
  | DequeOp.pushFront e :: ops =>
      let r := runCounts (push e d) ops
      (r.1, r.2.1 + 1, r.2.2)
  | DequeOp.pushBack e :: ops =>
      let r := runCounts (push_back e d) ops
      (r.1, r.2.1 + 1, r.2.2)
  | DequeOp.popFront :: ops =>
      let r := runCounts (pop d).2 ops
      (r.1, r.2.1, if (pop d).1.isSome then r.2.2 + 1 else r.2.2)
  | DequeOp.popBack :: ops =>
      let r := runCounts (pop_back d).2 ops
      (r.1, r.2.1, if (pop_back d).1.isSome then r.2.2 + 1 else r.2.2)

/-- States reachable from `Deque::new()` by the public operations. -/
inductive Reachable : Deque E → Prop where
  | base : Reachable new
  | pushF {d : Deque E} (e : E) : Reachable d → Reachable (push e d)
  | pushB {d : Deque E} (e : E) : Reachable d → Reachable (push_back e d)
  | popF {d : Deque E} : Reachable d → Reachable (pop d).2
  | popB {d : Deque E} : Reachable d → Reachable (pop_back d).2

/-! ## The representation predicate

A deque state is described by the list of its chain cells from head to
tail, each an address paired with the stored element. -/

/-- Addresses of a chain description. -/
def addrs (l : List (Nat × E)) : List Nat := l.map Prod.fst

/-- Elements of a chain description. -/
def elems (l : List (Nat × E)) : List E := l.map Prod.snd

/-- Address of the first cell of `l`, or the boundary link `nx` when `l` is
empty. -/
def headOr (l : List (Nat × E)) (nx : Option Nat) : Option Nat :=
  match l with
  | [] => nx
  | p :: _ => some p.1

/-- Address of the last cell of `l`, or the boundary link `pr` when `l` is
empty. -/
def lastOr (pr : Option Nat) (l : List (Nat × E)) : Option Nat :=
  match (addrs l).getLast? with
  | none => pr
  | some a => some a

/-- `seg hp pr l nx`: the cells listed in `l` form a doubly linked chain
segment in `hp`; the first cell's `prev` is `pr` and the last cell's `next`
is `nx`, adjacent cells point at each other, and each cell stores its listed
element. -/
def seg (hp : Heap E) : Option Nat → List (Nat × E) → Option Nat → Prop
  | _, [], _ => True
  | pr, p :: l, nx =>
      getNode hp p.1 = some ⟨headOr l nx, pr, p.2⟩ ∧ seg hp (some p.1) l nx

/-- The full representation invariant: `l` lists the chain from head to
tail, the deque fields agree with it, addresses are distinct, every live
heap cell is on the chain, and the number of live cells equals the size. -/
def Rep (d : Deque E) (l : List (Nat × E)) : Prop :=
  seg d.heap none l none ∧
  d.head = headOr l none ∧
  d.tail = lastOr none l ∧
  d.size = l.length ∧
  (addrs l).Nodup ∧
  (∀ a, (getNode d.heap a).isSome = true → a ∈ addrs l) ∧
  liveCount d.heap = l.length

/-- A state satisfies the structural invariants for some chain. -/
def Inv (d : Deque E) : Prop := ∃ l, Rep d l

/-- The structural properties claimed of every reachable state: the
size/emptiness link, absent boundary links, mutual consistency of adjacent
links, and the forward/backward walks covering the chain in exactly `size`
steps. -/
def StructuralOK (d : Deque E) : Prop :=
  (d.size = 0 ↔ d.head = none ∧ d.tail = none) ∧
  (0 < d.size →
    (∃ a n, d.head = some a ∧ getNode d.heap a = some n ∧ n.prev = none) ∧
    (∃ a n, d.tail = some a ∧ getNode d.heap a = some n ∧ n.next = none)) ∧
  (∀ a b na nb, getNode d.heap a = some na → getNode d.heap b = some nb →
    (na.next = some b → nb.prev = some a) ∧
    (nb.prev = some a → na.next = some b)) ∧
  (0 < d.size →
    (stepNext d.heap)^[d.size - 1] d.head = d.tail ∧
    (stepPrev d.heap)^[d.size - 1] d.tail = d.head) ∧
  ((stepNext d.heap)^[d.size] d.head = none ∧
   (stepPrev d.heap)^[d.size] d.tail = none)

/-! ## Basic heap lemmas -/

theorem getNode_eq (hp : Heap E) (a : Nat) :
    getNode hp a = (hp[a]?).getD none := by
  simp [getNode, List.getD, List.get?_eq_getElem?]

theorem getNode_nil (a : Nat) : getNode ([] : Heap E) a = none := by
  simp [getNode_eq]

theorem getNode_ge {hp : Heap E} {a : Nat} (h : hp.length ≤ a) :
    getNode hp a = none := by
  rw [getNode_eq, List.getElem?_eq_none h]
  rfl

theorem getNode_lt_length {hp : Heap E} {a : Nat} {n : DequeNode E}
    (h : getNode hp a = some n) : a < hp.length := by
  by_contra hlt
  rw [getNode_ge (by omega)] at h
  exact Option.noConfusion h

theorem getNode_append_left {hp : Heap E} {a : Nat} (l : Heap E)
    (h : a < hp.length) : getNode (hp ++ l) a = getNode hp a := by
  rw [getNode_eq, getNode_eq, List.getElem?_append_left h]

theorem getNode_append_length (hp : Heap E) (c : Option (DequeNode E)) :
    getNode (hp ++ [c]) hp.length = c := by
  rw [getNode_eq, List.getElem?_concat_length]
  rfl

theorem getNode_snoc_ne {hp : Heap E} {a : Nat} (c : Option (DequeNode E))
    (h : a ≠ hp.length) : getNode (hp ++ [c]) a = getNode hp a := by
  rcases Nat.lt_or_ge a hp.length with hlt | hge
  · exact getNode_append_left [c] hlt
  · have hgt : hp.length < a := Nat.lt_of_le_of_ne hge (Ne.symm h)
    rw [getNode_ge hge, getNode_ge (by simp; omega)]

theorem getNode_set_self {hp : Heap E} {a : Nat}
    (h : a < hp.length) (v : Option (DequeNode E)) :
    getNode (hp.set a v) a = v := by
  rw [getNode_eq, List.getElem?_set_self', List.getElem?_eq_getElem h]
  rfl

theorem getNode_set_ne {hp : Heap E} {a b : Nat} (v : Option (DequeNode E))
    (h : a ≠ b) : getNode (hp.set b v) a = getNode hp a := by
  rw [getNode_eq, getNode_eq, List.getElem?_set_ne (Ne.symm h)]

/-! ## Chain-description lemmas -/

theorem addrs_nil : addrs ([] : List (Nat × E)) = [] := rfl

theorem elems_nil : elems ([] : List (Nat × E)) = [] := rfl

theorem addrs_cons (p : Nat × E) (l : List (Nat × E)) :
    addrs (p :: l) = p.1 :: addrs l := rfl

theorem addrs_append (l₁ l₂ : List (Nat × E)) :
    addrs (l₁ ++ l₂) = addrs l₁ ++ addrs l₂ := List.map_append _ _ _

theorem addrs_length (l : List (Nat × E)) : (addrs l).length = l.length :=
  List.length_map _ _

theorem elems_length (l : List (Nat × E)) : (elems l).length = l.length :=
  List.length_map _ _

theorem mem_addrs {l : List (Nat × E)} {a : Nat} :
    a ∈ addrs l ↔ ∃ e, (a, e) ∈ l := by
  constructor
  · intro h
    rcases List.mem_map.mp h with ⟨⟨a1, e⟩, hp, he⟩
    cases he
    exact ⟨e, hp⟩
  · rintro ⟨e, he⟩
    exact List.mem_map.mpr ⟨(a, e), he, rfl⟩

theorem headOr_append (l₁ l₂ : List (Nat × E)) (nx : Option Nat) :
    headOr (l₁ ++ l₂) nx = headOr l₁ (headOr l₂ nx) := by
  cases l₁ <;> rfl

theorem headOr_concat (l : List (Nat × E)) (p : Nat × E) (nx : Option Nat) :
    headOr (l ++ [p]) nx = headOr l (some p.1) := by
  cases l <;> rfl

theorem lastOr_cons (pr : Option Nat) (p : Nat × E) (l : List (Nat × E)) :
    lastOr pr (p :: l) = lastOr (some p.1) l := by
  cases l with
  | nil => rfl
  | cons q l =>
      simp only [lastOr, addrs_cons, List.getLast?_cons_cons]
      cases hg : (q.1 :: addrs l).getLast? with
      | none => exact absurd (List.getLast?_eq_none_iff.mp hg) (by simp)
      | some b => rfl

theorem lastOr_concat (pr : Option Nat) (l : List (Nat × E)) (p : Nat × E) :
    lastOr pr (l ++ [p]) = some p.1 := by
  simp [lastOr, addrs_append, addrs, List.getLast?_concat]

theorem lastOr_mem {pr : Option Nat} {l : List (Nat × E)} {a : Nat}
    (h : lastOr pr l = some a) (hne : l ≠ []) : a ∈ addrs l := by
  unfold lastOr at h
  cases hg : (addrs l).getLast? with
  | none =>
      exact absurd (List.getLast?_eq_none_iff.mp hg)
        (by simpa [addrs] using hne)
  | some b =>
      rw [hg] at h
      cases h
      exact List.mem_of_mem_getLast? (by simp [hg])

theorem seg_nil (hp : Heap E) (pr nx : Option Nat) : seg hp pr [] nx :=
  trivial

theorem seg_cons {hp : Heap E} {pr nx : Option Nat} {p : Nat × E}
    {l : List (Nat × E)} :
    seg hp pr (p :: l) nx ↔
      getNode hp p.1 = some ⟨headOr l nx, pr, p.2⟩ ∧ seg hp (some p.1) l nx :=
  Iff.rfl

theorem seg_frame {hp hp2 : Heap E} :
    ∀ {l : List (Nat × E)} {pr nx : Option Nat}, seg hp pr l nx →
      (∀ p ∈ l, getNode hp2 p.1 = getNode hp p.1) → seg hp2 pr l nx := by
  intro l
  induction l with
  | nil => intro pr nx _ _; exact seg_nil _ _ _
  | cons p l ih =>
      intro pr nx h hsame
      rcases seg_cons.mp h with ⟨hnode, hrest⟩
      exact seg_cons.mpr ⟨by rw [hsame p (List.mem_cons_self _ _)]; exact hnode,
        ih hrest (fun q hq => hsame q (List.mem_cons_of_mem _ hq))⟩

theorem seg_mem {hp : Heap E} :
    ∀ {l : List (Nat × E)} {pr nx : Option Nat}, seg hp pr l nx →
      ∀ p ∈ l, ∃ n : DequeNode E, getNode hp p.1 = some n ∧ n.elem = p.2 := by
  intro l
  induction l with
  | nil => intro pr nx _ p hp; exact absurd hp (List.not_mem_nil _)
  | cons q l ih =>
      intro pr nx h p hmem
      rcases seg_cons.mp h with ⟨hnode, hrest⟩
      rcases List.mem_cons.mp hmem with rfl | hmem
      · exact ⟨_, hnode, rfl⟩
      · exact ih hrest p hmem

theorem seg_addr_lt {hp : Heap E} {l : List (Nat × E)} {pr nx : Option Nat}
    (h : seg hp pr l nx) : ∀ a ∈ addrs l, a < hp.length := by
  intro a ha
  rcases mem_addrs.mp ha with ⟨e, he⟩
  rcases seg_mem h (a, e) he with ⟨n, hn, _⟩
  exact getNode_lt_length hn

theorem seg_append {hp : Heap E} :
    ∀ {l₁ l₂ : List (Nat × E)} {pr nx : Option Nat},
      seg hp pr (l₁ ++ l₂) nx ↔
        seg hp pr l₁ (headOr l₂ nx) ∧ seg hp (lastOr pr l₁) l₂ nx := by
  intro l₁
  induction l₁ with
  | nil =>
      intro l₂ pr nx
      exact Iff.intro (fun h => ⟨seg_nil _ _ _, h⟩) And.right
  | cons p l₁ ih =>
      intro l₂ pr nx
      rw [List.cons_append, seg_cons, seg_cons, headOr_append, ih,
        lastOr_cons, and_assoc]

theorem seg_concat_last {hp : Heap E} {l : List (Nat × E)} {p : Nat × E}
    {pr nx : Option Nat} (h : seg hp pr (l ++ [p]) nx) :
    getNode hp p.1 = some ⟨nx, lastOr pr l, p.2⟩ :=
  ((seg_append.mp h).2).1

theorem seg_no_ref {hp : Heap E} {a : Nat} :
    ∀ {l : List (Nat × E)} {pr nx : Option Nat}, seg hp pr l nx →
      a ∉ addrs l → pr ≠ some a → nx ≠ some a →
      ∀ p ∈ l, ∀ n : DequeNode E, getNode hp p.1 = some n →
        n.next ≠ some a ∧ n.prev ≠ some a := by
  intro l
  induction l with
  | nil => intro pr nx _ _ _ _ p hmem; exact absurd hmem (List.not_mem_nil _)
  | cons q l ih =>
      intro pr nx h hna hpr hnx p hmem n hn
      rcases seg_cons.mp h with ⟨hnode, hrest⟩
      have hqa : q.1 ≠ a := fun hqa => hna (hqa ▸ List.mem_cons_self _ _)
      have hna2 : a ∉ addrs l := fun hmem2 =>
        hna (List.mem_cons_of_mem _ hmem2)
      rcases List.mem_cons.mp hmem with rfl | hmem
      · rw [hn] at hnode
        cases hnode
        refine ⟨?_, hpr⟩
        cases l with
        | nil => exact hnx
        | cons r l' =>
            intro hcon
            rw [show headOr (r :: l') nx = some r.1 from rfl] at hcon
            cases hcon
            exact hna2 (List.mem_cons_self _ _)
      · exact ih hrest hna2 (fun hcon => hqa (Option.some.inj hcon)) hnx p hmem n hn

theorem seg_next_prev {hp : Heap E} :
    ∀ {l : List (Nat × E)} {pr : Option Nat}, seg hp pr l none →
      ∀ {a : Nat} {na : DequeNode E} {b : Nat}, a ∈ addrs l →
        getNode hp a = some na → na.next = some b →
        ∃ nb : DequeNode E, getNode hp b = some nb ∧ nb.prev = some a := by
  intro l
  induction l with
  | nil => intro pr _ a na b hmem; exact absurd hmem (by simp [addrs_nil])
  | cons p l ih =>
      intro pr h a na b hmem ha hnext
      rcases seg_cons.mp h with ⟨hnode, hrest⟩
      by_cases hap : a = p.1
      · subst hap
        rw [ha] at hnode
        cases hnode
        cases l with
        | nil => exact absurd hnext (by simp [headOr])
        | cons q l' =>
            have hq : q.1 = b := Option.some.inj hnext
            rcases seg_cons.mp hrest with ⟨hnodeQ, _⟩
            exact ⟨_, hq ▸ hnodeQ, rfl⟩
      · have hmem2 : a ∈ addrs l := by
          rcases List.mem_cons.mp (by simpa [addrs_cons] using hmem) with h1 | h2
          · exact absurd h1 hap
          · exact h2
        exact ih hrest hmem2 ha hnext

theorem seg_prev_next {hp : Heap E} :
    ∀ {l : List (Nat × E)} {pr nx : Option Nat}, seg hp pr l nx →
      ∀ {b : Nat} {nb : DequeNode E} {a : Nat}, b ∈ addrs l →
        getNode hp b = some nb → nb.prev = some a →
        (headOr l nx = some b ∧ pr = some a) ∨
        (∃ na : DequeNode E, getNode hp a = some na ∧ na.next = some b) := by
  intro l
  induction l with
  | nil => intro pr nx _ b nb a hmem; exact absurd hmem (by simp [addrs_nil])
  | cons q l ih =>
      intro pr nx h b nb a hmem hb hprev
      rcases seg_cons.mp h with ⟨hnode, hrest⟩
      by_cases hbq : b = q.1
      · subst hbq
        rw [hb] at hnode
        cases hnode
        exact Or.inl ⟨rfl, hprev⟩
      · have hmem2 : b ∈ addrs l := by
          rcases List.mem_cons.mp (by simpa [addrs_cons] using hmem) with h1 | h2
          · exact absurd h1 hbq
          · exact h2
        rcases ih hrest hmem2 hb hprev with ⟨hhd, hqa⟩ | hr
        · have haq : a = q.1 := (Option.some.inj hqa).symm
          subst haq
          exact Or.inr ⟨⟨headOr l nx, pr, q.2⟩, hnode, hhd⟩
        · exact Or.inr hr

/-! ## Live-cell counting -/

theorem getNode_cons_zero (c : Option (DequeNode E)) (hp : Heap E) :
    getNode (c :: hp) 0 = c := rfl

theorem getNode_cons_succ (c : Option (DequeNode E)) (hp : Heap E) (a : Nat) :
    getNode (c :: hp) (a + 1) = getNode hp a := rfl

theorem liveCount_nil : liveCount ([] : Heap E) = 0 := rfl

theorem liveCount_cons (c : Option (DequeNode E)) (hp : Heap E) :
    liveCount (c :: hp) = (if c.isSome then 1 else 0) + liveCount hp := by
  simp [liveCount]

theorem liveCount_snoc (hp : Heap E) (c : Option (DequeNode E)) :
    liveCount (hp ++ [c]) = liveCount hp + (if c.isSome then 1 else 0) := by
  simp [liveCount]

theorem liveCount_set_some {hp : Heap E} :
    ∀ {a : Nat} {n : DequeNode E}, getNode hp a = some n →
      ∀ m : DequeNode E, liveCount (hp.set a (some m)) = liveCount hp := by
  induction hp with
  | nil => intro a n h _; rw [getNode_nil] at h; exact Option.noConfusion h
  | cons c hp ih =>
      intro a n h m
      cases a with
      | zero =>
          rw [getNode_cons_zero] at h
          subst h
          simp [List.set, liveCount_cons]
      | succ a =>
          rw [getNode_cons_succ] at h
          simp only [List.set, liveCount_cons, ih h m]

theorem liveCount_set_none {hp : Heap E} :
    ∀ {a : Nat} {n : DequeNode E}, getNode hp a = some n →
      liveCount (hp.set a none) + 1 = liveCount hp := by
  induction hp with
  | nil => intro a n h; rw [getNode_nil] at h; exact Option.noConfusion h
  | cons c hp ih =>
      intro a n h
      cases a with
      | zero =>
          rw [getNode_cons_zero] at h
          subst h
          simp [List.set, liveCount_cons, Nat.add_comm]
      | succ a =>
          rw [getNode_cons_succ] at h
          simp only [List.set, liveCount_cons]
          have := ih h
          omega

/-! ## Reference counting -/

theorem heapRefs_eq_zero {hp : Heap E} {a : Nat}
    (h : ∀ i n, getNode hp i = some n →
      n.next ≠ some a ∧ n.prev ≠ some a) : heapRefs hp a = 0 := by
  apply List.sum_eq_zero
  intro x hx
  rcases List.mem_map.mp hx with ⟨i, _, rfl⟩
  cases hg : getNode hp i with
  | none => simp [hg]
  | some n =>
      rcases h i n hg with ⟨h1, h2⟩
      simp [hg, refsFromNode, h1, h2]

theorem refsFromNode_le_heapRefs {hp : Heap E} {j : Nat} {n : DequeNode E}
    (h : getNode hp j = some n) (a : Nat) :
    refsFromNode n a ≤ heapRefs hp a := by
  apply List.single_le_sum (fun x _ => Nat.zero_le x)
  apply List.mem_map.mpr
  refine ⟨j, List.mem_range.mpr (getNode_lt_length h), ?_⟩
  rw [h]

/-! ## Operation shapes -/

theorem setPrev_eq {hp : Heap E} {a : Nat} {n : DequeNode E}
    (h : getNode hp a = some n) (p : Option Nat) :
    setPrev hp a p = hp.set a (some { n with prev := p }) := by
  unfold setPrev
  rw [h]

theorem setNext_eq {hp : Heap E} {a : Nat} {n : DequeNode E}
    (h : getNode hp a = some n) (nx : Option Nat) :
    setNext hp a nx = hp.set a (some { n with next := nx }) := by
  unfold setNext
  rw [h]

/-! ## Walks along the chain -/

theorem iterate_fix_none {f : Option Nat → Option Nat} (h : f none = none) :
    ∀ k, f^[k] none = none := by
  intro k
  induction k with
  | zero => rfl
  | succ k ih => rw [Function.iterate_succ_apply, h, ih]

theorem stepNext_none (hp : Heap E) : stepNext hp none = none := rfl

theorem stepPrev_none (hp : Heap E) : stepPrev hp none = none := rfl

theorem seg_walk {hp : Heap E} :
    ∀ {l : List (Nat × E)} {pr nx : Option Nat}, seg hp pr l nx →
      ∀ k, k < l.length →
        (stepNext hp)^[k] (headOr l nx) = (addrs l)[k]? := by
  intro l
  induction l with
  | nil => intro pr nx _ k hk; exact absurd hk (by simp)
  | cons p l ih =>
      intro pr nx h k hk
      rcases seg_cons.mp h with ⟨hnode, hrest⟩
      cases k with
      | zero => simp [headOr, addrs_cons]
      | succ k =>
          rw [Function.iterate_succ_apply]
          have hstep : stepNext hp (headOr (p :: l) nx) = headOr l nx := by
            simp [headOr, stepNext, hnode]
          rw [hstep, ih hrest k (by simpa using hk), addrs_cons,
            List.getElem?_cons_succ]

theorem seg_walk_rev {hp : Heap E} :
    ∀ {l : List (Nat × E)} {pr nx : Option Nat}, seg hp pr l nx →
      (∀ k, k < l.length →
        (stepPrev hp)^[k] ((addrs l).getLast?) = (addrs l).reverse[k]?) ∧
      (l ≠ [] → (stepPrev hp)^[l.length] ((addrs l).getLast?) = pr) := by
  intro l
  induction l with
  | nil =>
      intro pr nx _
      exact ⟨fun k hk => absurd hk (by simp), fun h => absurd rfl h⟩
  | cons p l ih =>
      intro pr nx h
      rcases seg_cons.mp h with ⟨hnode, hrest⟩
      rcases ih hrest with ⟨iha, ihb⟩
      cases l with
      | nil =>
          refine ⟨?_, ?_⟩
          · intro k hk
            have hk0 : k = 0 := by simpa using hk
            subst hk0
            simp [addrs_cons, addrs_nil]
          · intro _
            show (stepPrev hp)^[1] (some p.1) = pr
            simp [stepPrev, hnode]
      | cons q l' =>
          have hlast : (addrs (p :: q :: l')).getLast? =
              (addrs (q :: l')).getLast? := by
            simp only [addrs_cons, List.getLast?_cons_cons]
          have hlen : (addrs (q :: l')).reverse.length = (q :: l').length := by
            simp [addrs_length]
          have hrev : (addrs (p :: q :: l')).reverse =
              (addrs (q :: l')).reverse ++ [p.1] := by
            simp [addrs_cons]
          have hfull : (stepPrev hp)^[(q :: l').length]
              ((addrs (q :: l')).getLast?) = some p.1 := ihb (by simp)
          refine ⟨?_, ?_⟩
          · intro k hk
            rw [hlast, hrev]
            rcases Nat.lt_or_ge k (q :: l').length with hk2 | hk2
            · rw [iha k hk2, List.getElem?_append_left (by omega)]
            · have hkeq : k = (q :: l').length := by
                simp only [List.length_cons] at hk hk2 ⊢
                omega
              subst hkeq
              rw [hfull, ← hlen, List.getElem?_concat_length]
          · intro _
            rw [hlast, show ((p :: q :: l').length) = (q :: l').length + 1
              from rfl, Function.iterate_succ_apply', hfull]
            simp [stepPrev, hnode]

/-! ## The operations preserve the representation -/

theorem rep_new : Rep (new : Deque E) [] := by
  refine ⟨seg_nil _ _ _, rfl, rfl, rfl, List.nodup_nil, ?_, rfl⟩
  intro a ha
  have hnone : getNode (new : Deque E).heap a = none := getNode_nil a
  rw [hnone] at ha
  exact absurd ha (by simp)

theorem rep_push {d : Deque E} {l : List (Nat × E)} (e : E) (h : Rep d l) :
    Rep (push e d) ((d.heap.length, e) :: l) := by
  obtain ⟨hseg, hhead, htail, hsize, hnodup, hcomp, hlive⟩ := h
  cases l with
  | nil =>
      have hh : d.head = none := hhead
      have hpush : push e d = ⟨d.heap ++ [some ⟨none, none, e⟩],
          some d.heap.length, some d.heap.length, d.size + 1⟩ := by
        simp only [push, hh]
      rw [hpush]
      refine ⟨?_, rfl, ?_, ?_, ?_, ?_, ?_⟩
      · exact seg_cons.mpr ⟨getNode_append_length _ _, seg_nil _ _ _⟩
      · simp [lastOr, addrs]
      · simp [hsize]
      · simp [addrs_cons, addrs_nil]
      · intro a ha
        by_cases haL : a = d.heap.length
        · simp [addrs_cons, haL]
        · rw [getNode_snoc_ne _ haL] at ha
          have := hcomp a ha
          exact absurd this (by simp [addrs_nil])
      · rw [liveCount_snoc, hlive]
        rfl
  | cons p l =>
      have hh : d.head = some p.1 := hhead
      rcases seg_cons.mp hseg with ⟨hnodeP, hrest⟩
      have hpLt : p.1 < d.heap.length := getNode_lt_length hnodeP
      have hLne : p.1 ≠ d.heap.length := Nat.ne_of_lt hpLt
      have hpnotin : p.1 ∉ addrs l :=
        (List.nodup_cons.mp (by simpa [addrs_cons] using hnodup)).1
      have hg0 : getNode (d.heap ++ [some ⟨some p.1, none, e⟩]) p.1
          = some ⟨headOr l none, none, p.2⟩ := by
        rw [getNode_append_left _ hpLt]; exact hnodeP
      have hpush : push e d = ⟨(d.heap ++ [some (⟨some p.1, none, e⟩ : DequeNode E)]).set p.1
            (some (⟨headOr l none, some d.heap.length, p.2⟩ : DequeNode E)),
          some d.heap.length, d.tail, d.size + 1⟩ := by
        simp only [push, hh, setPrev_eq hg0]
      rw [hpush]
      have hgL : getNode ((d.heap ++ [some (⟨some p.1, none, e⟩ : DequeNode E)]).set p.1
            (some (⟨headOr l none, some d.heap.length, p.2⟩ : DequeNode E))) d.heap.length
          = some (⟨some p.1, none, e⟩ : DequeNode E) := by
        rw [getNode_set_ne _ (Ne.symm hLne), getNode_append_length]
      have hgP : getNode ((d.heap ++ [some (⟨some p.1, none, e⟩ : DequeNode E)]).set p.1
            (some (⟨headOr l none, some d.heap.length, p.2⟩ : DequeNode E))) p.1
          = some (⟨headOr l none, some d.heap.length, p.2⟩ : DequeNode E) := by
        rw [getNode_set_self (by simp; omega) _]
      have hframe : ∀ q ∈ l, getNode ((d.heap ++ [some (⟨some p.1, none, e⟩ : DequeNode E)]).set
            p.1 (some (⟨headOr l none, some d.heap.length, p.2⟩ : DequeNode E))) q.1
          = getNode d.heap q.1 := by
        intro q hq
        have h1 : q.1 ∈ addrs l := List.mem_map.mpr ⟨q, hq, rfl⟩
        have h2 : q.1 < d.heap.length :=
          seg_addr_lt hseg q.1 (by simp [addrs_cons]; right; exact h1)
        have h3 : q.1 ≠ p.1 := fun hc => hpnotin (hc ▸ h1)
        rw [getNode_set_ne _ h3, getNode_snoc_ne _ (Nat.ne_of_lt h2)]
      refine ⟨?_, rfl, ?_, ?_, ?_, ?_, ?_⟩
      · exact seg_cons.mpr ⟨hgL, seg_cons.mpr ⟨hgP, seg_frame hrest hframe⟩⟩
      · rw [htail]
        simp only [lastOr_cons]
      · simp [hsize]
      · have hnodup2 : (p.1 :: addrs l).Nodup := by
          rw [addrs_cons] at hnodup; exact hnodup
        rw [addrs_cons, addrs_cons]
        refine List.nodup_cons.mpr ⟨?_, hnodup2⟩
        intro hmem
        have := seg_addr_lt hseg d.heap.length (by rw [addrs_cons]; exact hmem)
        omega
      · intro a ha
        by_cases haL : a = d.heap.length
        · simp [addrs_cons, haL]
        · by_cases hap : a = p.1
          · simp [addrs_cons, hap]
          · rw [getNode_set_ne _ hap, getNode_snoc_ne _ haL] at ha
            have := hcomp a ha
            simp only [addrs_cons, List.mem_cons] at this ⊢
            tauto
      · rw [liveCount_set_some hg0 _, liveCount_snoc, hlive]
        rfl

theorem rep_pop {d : Deque E} {p : Nat × E} {l : List (Nat × E)}
    (h : Rep d (p :: l)) :
    ∃ d2, pop d = (some p.2, d2) ∧ Rep d2 l ∧ popUnwrapCount d = some 1 := by
  obtain ⟨hseg, hhead, htail, hsize, hnodup, hcomp, hlive⟩ := h
  rcases seg_cons.mp hseg with ⟨hnodeP, hrest⟩
  have hh : d.head = some p.1 := hhead
  have hpLt : p.1 < d.heap.length := getNode_lt_length hnodeP
  have hpnotin : p.1 ∉ addrs l := by
    rw [addrs_cons] at hnodup; exact (List.nodup_cons.mp hnodup).1
  have hnodupl : (addrs l).Nodup := by
    rw [addrs_cons] at hnodup; exact (List.nodup_cons.mp hnodup).2
  cases l with
  | nil =>
      have hmid : popMid d = some (p.1, (⟨none, none, p.2⟩ : DequeNode E),
          ⟨d.heap.set p.1 (some (⟨none, none, p.2⟩ : DequeNode E)),
            none, none, d.size - 1⟩) := by
        simp only [popMid, hh, hnodeP, headOr]
      have hpop : pop d = (some p.2,
          ⟨(d.heap.set p.1 (some (⟨none, none, p.2⟩ : DequeNode E))).set p.1 none,
            none, none, d.size - 1⟩) := by
        simp only [pop, hmid]
      refine ⟨_, hpop, ⟨seg_nil _ _ _, rfl, rfl, ?_, List.nodup_nil, ?_, ?_⟩, ?_⟩
      · rw [hsize]; rfl
      · intro a ha
        rw [List.set_set] at ha
        by_cases hap : a = p.1
        · subst hap
          rw [getNode_set_self hpLt _] at ha
          exact absurd ha (by simp)
        · rw [getNode_set_ne _ hap] at ha
          have := hcomp a ha
          rw [addrs_cons, addrs_nil] at this
          rcases List.mem_cons.mp this with h1 | h2
          · exact absurd h1 hap
          · exact absurd h2 (List.not_mem_nil _)
      · show liveCount ((d.heap.set p.1
            (some (⟨none, none, p.2⟩ : DequeNode E))).set p.1 none)
          = ([] : List (Nat × E)).length
        rw [List.set_set]
        have h2 := liveCount_set_none hnodeP
        rw [hlive] at h2
        simp only [List.length_cons, List.length_nil] at h2 ⊢
        omega
      · rw [popUnwrapCount, hmid, Option.map_some']
        have hz : refsTo (⟨d.heap.set p.1 (some (⟨none, none, p.2⟩ : DequeNode E)),
            none, none, d.size - 1⟩ : Deque E) p.1 = 0 := by
          have hheap0 : heapRefs
              (d.heap.set p.1 (some (⟨none, none, p.2⟩ : DequeNode E))) p.1 = 0 := by
            apply heapRefs_eq_zero
            intro i n hn
            by_cases hip : i = p.1
            · subst hip
              rw [getNode_set_self hpLt _] at hn
              cases hn
              exact ⟨by simp, by simp⟩
            · rw [getNode_set_ne _ hip] at hn
              have := hcomp i (by simp [hn])
              rw [addrs_cons, addrs_nil] at this
              rcases List.mem_cons.mp this with h1 | h2
              · exact absurd h1 hip
              · exact absurd h2 (List.not_mem_nil _)
          simp [refsTo, hheap0]
        rw [hz]
  | cons q l' =>
      rcases seg_cons.mp hrest with ⟨hnodeQ, hrest2⟩
      have hqLt : q.1 < d.heap.length := getNode_lt_length hnodeQ
      have hqp : q.1 ≠ p.1 := by
        intro hc
        exact hpnotin (by rw [addrs_cons, ← hc]; exact List.mem_cons_self _ _)
      have hpnotin2 : p.1 ∉ addrs l' := fun hc =>
        hpnotin (by rw [addrs_cons]; exact List.mem_cons_of_mem _ hc)
      have hq_notin : q.1 ∉ addrs l' := by
        rw [addrs_cons] at hnodupl; exact (List.nodup_cons.mp hnodupl).1
      have hnodupl' : (addrs l').Nodup := by
        rw [addrs_cons] at hnodupl; exact (List.nodup_cons.mp hnodupl).2
      have hg1 : getNode (d.heap.set p.1 (some (⟨none, none, p.2⟩ : DequeNode E)))
          q.1 = some ⟨headOr l' none, some p.1, q.2⟩ := by
        rw [getNode_set_ne _ hqp]; exact hnodeQ
      have hmid : popMid d = some (p.1, (⟨some q.1, none, p.2⟩ : DequeNode E),
          ⟨(d.heap.set p.1 (some (⟨none, none, p.2⟩ : DequeNode E))).set q.1
              (some (⟨headOr l' none, none, q.2⟩ : DequeNode E)),
            some q.1, d.tail, d.size - 1⟩) := by
        simp only [popMid, hh, hnodeP, headOr, setPrev_eq hg1]
      have hpop : pop d = (some p.2,
          ⟨((d.heap.set p.1 (some (⟨none, none, p.2⟩ : DequeNode E))).set q.1
              (some (⟨headOr l' none, none, q.2⟩ : DequeNode E))).set p.1 none,
            some q.1, d.tail, d.size - 1⟩) := by
        simp only [pop, hmid]
      have gQB : getNode ((d.heap.set p.1 (some (⟨none, none, p.2⟩ : DequeNode E))).set
          q.1 (some (⟨headOr l' none, none, q.2⟩ : DequeNode E))) q.1
          = some ⟨headOr l' none, none, q.2⟩ := by
        rw [getNode_set_self (by rw [List.length_set]; exact hqLt) _]
      have gQC : getNode (((d.heap.set p.1 (some (⟨none, none, p.2⟩ : DequeNode E))).set
          q.1 (some (⟨headOr l' none, none, q.2⟩ : DequeNode E))).set p.1 none) q.1
          = some ⟨headOr l' none, none, q.2⟩ := by
        rw [getNode_set_ne _ hqp]; exact gQB
      have gPB : getNode ((d.heap.set p.1 (some (⟨none, none, p.2⟩ : DequeNode E))).set
          q.1 (some (⟨headOr l' none, none, q.2⟩ : DequeNode E))) p.1
          = some ⟨none, none, p.2⟩ := by
        rw [getNode_set_ne _ (Ne.symm hqp), getNode_set_self hpLt _]
      have frameC : ∀ r ∈ l', getNode (((d.heap.set p.1
            (some (⟨none, none, p.2⟩ : DequeNode E))).set q.1
            (some (⟨headOr l' none, none, q.2⟩ : DequeNode E))).set p.1 none) r.1
          = getNode d.heap r.1 := by
        intro r hr
        have h1 : r.1 ∈ addrs l' := List.mem_map.mpr ⟨r, hr, rfl⟩
        have h2 : r.1 ≠ p.1 := fun hc => hpnotin2 (hc ▸ h1)
        have h3 : r.1 ≠ q.1 := fun hc => hq_notin (hc ▸ h1)
        rw [getNode_set_ne _ h2, getNode_set_ne _ h3, getNode_set_ne _ h2]
      refine ⟨_, hpop, ⟨?_, rfl, ?_, ?_, hnodupl, ?_, ?_⟩, ?_⟩
      · exact seg_cons.mpr ⟨gQC, seg_frame hrest2 frameC⟩
      · rw [htail]
        simp only [lastOr_cons]
      · rw [hsize]; rfl
      · intro a ha
        by_cases hap : a = p.1
        · subst hap
          rw [getNode_set_self (by rw [List.length_set, List.length_set]; exact hpLt)
            _] at ha
          exact absurd ha (by simp)
        · by_cases haq : a = q.1
          · subst haq; rw [addrs_cons]; exact List.mem_cons_self _ _
          · rw [getNode_set_ne _ hap, getNode_set_ne _ haq,
              getNode_set_ne _ hap] at ha
            have := hcomp a ha
            rw [addrs_cons] at this
            rcases List.mem_cons.mp this with h1 | h2
            · exact absurd h1 hap
            · exact h2
      · show liveCount (((d.heap.set p.1
            (some (⟨none, none, p.2⟩ : DequeNode E))).set q.1
            (some (⟨headOr l' none, none, q.2⟩ : DequeNode E))).set p.1 none)
          = (q :: l').length
        have l1 : liveCount (d.heap.set p.1
            (some (⟨none, none, p.2⟩ : DequeNode E))) = liveCount d.heap :=
          liveCount_set_some hnodeP _
        have l2 := liveCount_set_some hg1
          (⟨headOr l' none, none, q.2⟩ : DequeNode E)
        have l3 := liveCount_set_none gPB
        rw [l2, l1, hlive] at l3
        simp only [List.length_cons] at l3 ⊢
        omega
      · rw [popUnwrapCount, hmid, Option.map_some']
        have hz : refsTo (⟨(d.heap.set p.1 (some (⟨none, none, p.2⟩ : DequeNode E))).set
            q.1 (some (⟨headOr l' none, none, q.2⟩ : DequeNode E)),
            some q.1, d.tail, d.size - 1⟩ : Deque E) p.1 = 0 := by
          have htail0 : d.tail ≠ some p.1 := by
            rw [htail, lastOr_cons]
            intro hc
            exact hpnotin (lastOr_mem hc (by simp))
          have hheap0 : heapRefs ((d.heap.set p.1
              (some (⟨none, none, p.2⟩ : DequeNode E))).set q.1
              (some (⟨headOr l' none, none, q.2⟩ : DequeNode E))) p.1 = 0 := by
            apply heapRefs_eq_zero
            intro i n hn
            by_cases hip : i = p.1
            · subst hip
              rw [gPB] at hn
              cases hn
              exact ⟨by simp, by simp⟩
            · by_cases hiq : i = q.1
              · subst hiq
                rw [gQB] at hn
                cases hn
                refine ⟨?_, by simp⟩
                cases l' with
                | nil => simp [headOr]
                | cons r l'' =>
                    intro hc
                    have hr : r.1 = p.1 :=
                      Option.some.inj (by simpa [headOr] using hc)
                    apply hpnotin2
                    rw [← hr, addrs_cons]
                    exact List.mem_cons_self _ _
              · rw [getNode_set_ne _ hiq, getNode_set_ne _ hip] at hn
                have hmm := hcomp i (by simp [hn])
                rw [addrs_cons, addrs_cons] at hmm
                have hi_l' : i ∈ addrs l' := by
                  rcases List.mem_cons.mp hmm with h1 | h2
                  · exact absurd h1 hip
                  · rcases List.mem_cons.mp h2 with h3 | h4
                    · exact absurd h3 hiq
                    · exact h4
                rcases mem_addrs.mp hi_l' with ⟨e', he'⟩
                exact seg_no_ref hrest2 hpnotin2
                  (fun hc => hqp (Option.some.inj hc)) (by simp)
                  (i, e') he' n hn
          simp [refsTo, hheap0, htail0, hqp]
        rw [hz]

theorem nodup_concat {xs : List Nat} {x : Nat} :
    (xs ++ [x]).Nodup ↔ xs.Nodup ∧ x ∉ xs := by
  simp [List.nodup_append]

theorem headOr_mem {l : List (Nat × E)} {nx : Option Nat} {x : Nat}
    (hne : l ≠ []) (h : headOr l nx = some x) : x ∈ addrs l := by
  cases l with
  | nil => exact absurd rfl hne
  | cons p l =>
      cases h
      rw [addrs_cons]
      exact List.mem_cons_self _ _

theorem rep_pop_nil {d : Deque E} (h : Rep d []) :
    pop d = (none, d) ∧ popUnwrapCount d = none := by
  have hh : d.head = none := h.2.1
  constructor
  · simp only [pop, popMid, hh]
  · simp only [popUnwrapCount, popMid, hh]
    rfl

theorem rep_pop_back_nil {d : Deque E} (h : Rep d []) :
    pop_back d = (none, d) ∧ popBackUnwrapCount d = none := by
  have ht : d.tail = none := h.2.2.1
  constructor
  · simp only [pop_back, popBackMid, ht]
  · simp only [popBackUnwrapCount, popBackMid, ht]
    rfl

theorem rep_push_back {d : Deque E} {l : List (Nat × E)} (e : E) (h : Rep d l) :
    Rep (push_back e d) (l ++ [(d.heap.length, e)]) := by
  rcases List.eq_nil_or_concat l with rfl | ⟨l₂, q, rfl⟩
  · have hh : d.head = none := h.2.1
    have ht : d.tail = none := h.2.2.1
    have heq : push_back e d = push e d := by
      simp only [push, push_back, hh, ht]
    rw [heq]
    exact rep_push e h
  · rw [List.concat_eq_append] at h ⊢
    obtain ⟨hseg, hhead, htail, hsize, hnodup, hcomp, hlive⟩ := h
    have ht : d.tail = some q.1 := by rw [htail, lastOr_concat]
    have hnodeQ : getNode d.heap q.1 = some ⟨none, lastOr none l₂, q.2⟩ :=
      seg_concat_last hseg
    have hqLt : q.1 < d.heap.length := getNode_lt_length hnodeQ
    have hqL : q.1 ≠ d.heap.length := Nat.ne_of_lt hqLt
    have hnodup2 : (addrs l₂).Nodup ∧ q.1 ∉ addrs l₂ := by
      rw [addrs_append, addrs_cons, addrs_nil] at hnodup
      exact nodup_concat.mp hnodup
    have hg0 : getNode (d.heap ++ [some (⟨none, some q.1, e⟩ : DequeNode E)]) q.1
        = some ⟨none, lastOr none l₂, q.2⟩ := by
      rw [getNode_append_left _ hqLt]; exact hnodeQ
    have hpush : push_back e d =
        ⟨(d.heap ++ [some (⟨none, some q.1, e⟩ : DequeNode E)]).set q.1
            (some (⟨some d.heap.length, lastOr none l₂, q.2⟩ : DequeNode E)),
          d.head, some d.heap.length, d.size + 1⟩ := by
      simp only [push_back, ht, setNext_eq hg0]
    rw [hpush]
    have gQ : getNode ((d.heap ++ [some (⟨none, some q.1, e⟩ : DequeNode E)]).set
          q.1 (some (⟨some d.heap.length, lastOr none l₂, q.2⟩ : DequeNode E))) q.1
        = some ⟨some d.heap.length, lastOr none l₂, q.2⟩ := by
      rw [getNode_set_self (by simp; omega) _]
    have gL : getNode ((d.heap ++ [some (⟨none, some q.1, e⟩ : DequeNode E)]).set
          q.1 (some (⟨some d.heap.length, lastOr none l₂, q.2⟩ : DequeNode E)))
          d.heap.length = some ⟨none, some q.1, e⟩ := by
      rw [getNode_set_ne _ (Ne.symm hqL), getNode_append_length]
    have hframe : ∀ r ∈ l₂, getNode ((d.heap ++ [some
          (⟨none, some q.1, e⟩ : DequeNode E)]).set q.1
          (some (⟨some d.heap.length, lastOr none l₂, q.2⟩ : DequeNode E))) r.1
        = getNode d.heap r.1 := by
      intro r hr
      have h1 : r.1 ∈ addrs l₂ := List.mem_map.mpr ⟨r, hr, rfl⟩
      have h2 : r.1 ≠ q.1 := fun hc => hnodup2.2 (hc ▸ h1)
      have h3 : r.1 < d.heap.length := seg_addr_lt hseg r.1
        (by rw [addrs_append]; exact List.mem_append_left _ h1)
      rw [getNode_set_ne _ h2, getNode_snoc_ne _ (Nat.ne_of_lt h3)]
    rcases seg_append.mp hseg with ⟨hseg2, _⟩
    refine ⟨?_, ?_, ?_, ?_, ?_, ?_, ?_⟩
    · rw [seg_append]
      refine ⟨?_, ?_⟩
      · rw [seg_append]
        refine ⟨seg_frame hseg2 hframe, seg_cons.mpr ⟨?_, seg_nil _ _ _⟩⟩
        exact gQ
      · rw [lastOr_concat]
        exact seg_cons.mpr ⟨gL, seg_nil _ _ _⟩
    · rw [hhead, headOr_concat, headOr_concat, headOr_concat]
    · rw [lastOr_concat]
    · simp [hsize]
    · rw [addrs_append, addrs_cons, addrs_nil, nodup_concat]
      refine ⟨hnodup, ?_⟩
      intro hmem
      have := seg_addr_lt hseg _ hmem
      omega
    · intro a ha
      rw [addrs_append, addrs_cons, addrs_nil]
      by_cases haL : a = d.heap.length
      · subst haL
        exact List.mem_append_right _ (List.mem_cons_self _ _)
      · by_cases haq : a = q.1
        · subst haq
          refine List.mem_append_left _ ?_
          rw [addrs_append]
          refine List.mem_append_right _ ?_
          rw [addrs_cons]
          exact List.mem_cons_self _ _
        · rw [getNode_set_ne _ haq, getNode_snoc_ne _ haL] at ha
          exact List.mem_append_left _ (hcomp a ha)
    · have l1 : liveCount (d.heap ++ [some (⟨none, some q.1, e⟩ : DequeNode E)])
          = liveCount d.heap + 1 := by
        rw [liveCount_snoc]; rfl
      rw [liveCount_set_some hg0 _, l1, hlive]
      simp

theorem rep_pop_back {d : Deque E} {l : List (Nat × E)} {p : Nat × E}
    (h : Rep d (l ++ [p])) :
    ∃ d2, pop_back d = (some p.2, d2) ∧ Rep d2 l ∧
      popBackUnwrapCount d = some 1 := by
  rcases List.eq_nil_or_concat l with rfl | ⟨l₂, q, rfl⟩
  · rw [List.nil_append] at h
    obtain ⟨hseg, hhead, htail, hsize, hnodup, hcomp, hlive⟩ := h
    rcases seg_cons.mp hseg with ⟨hnodeP, _⟩
    have hpLt : p.1 < d.heap.length := getNode_lt_length hnodeP
    have ht : d.tail = some p.1 := by
      rw [htail, show ([p] : List (Nat × E)) = [] ++ [p] from rfl, lastOr_concat]
    have hmid : popBackMid d = some (p.1, (⟨none, none, p.2⟩ : DequeNode E),
        ⟨d.heap.set p.1 (some (⟨none, none, p.2⟩ : DequeNode E)),
          none, none, d.size - 1⟩) := by
      simp only [popBackMid, ht, hnodeP, headOr]
    have hpop : pop_back d = (some p.2,
        ⟨(d.heap.set p.1 (some (⟨none, none, p.2⟩ : DequeNode E))).set p.1 none,
          none, none, d.size - 1⟩) := by
      simp only [pop_back, hmid]
    refine ⟨_, hpop, ⟨seg_nil _ _ _, rfl, rfl, ?_, List.nodup_nil, ?_, ?_⟩, ?_⟩
    · rw [hsize]; rfl
    · intro a ha
      rw [List.set_set] at ha
      by_cases hap : a = p.1
      · subst hap
        rw [getNode_set_self hpLt _] at ha
        exact absurd ha (by simp)
      · rw [getNode_set_ne _ hap] at ha
        have := hcomp a ha
        rw [addrs_cons, addrs_nil] at this
        rcases List.mem_cons.mp this with h1 | h2
        · exact absurd h1 hap
        · exact absurd h2 (List.not_mem_nil _)
    · show liveCount ((d.heap.set p.1
          (some (⟨none, none, p.2⟩ : DequeNode E))).set p.1 none)
        = ([] : List (Nat × E)).length
      rw [List.set_set]
      have h2 := liveCount_set_none hnodeP
      rw [hlive] at h2
      simp only [List.length_cons, List.length_nil] at h2 ⊢
      omega
    · rw [popBackUnwrapCount, hmid, Option.map_some']
      have hz : refsTo (⟨d.heap.set p.1 (some (⟨none, none, p.2⟩ : DequeNode E)),
          none, none, d.size - 1⟩ : Deque E) p.1 = 0 := by
        have hheap0 : heapRefs
            (d.heap.set p.1 (some (⟨none, none, p.2⟩ : DequeNode E))) p.1 = 0 := by
          apply heapRefs_eq_zero
          intro i n hn
          by_cases hip : i = p.1
          · subst hip
            rw [getNode_set_self hpLt _] at hn
            cases hn
            exact ⟨by simp, by simp⟩
          · rw [getNode_set_ne _ hip] at hn
            have := hcomp i (by simp [hn])
            rw [addrs_cons, addrs_nil] at this
            rcases List.mem_cons.mp this with h1 | h2
            · exact absurd h1 hip
            · exact absurd h2 (List.not_mem_nil _)
        simp [refsTo, hheap0]
      rw [hz]
  · rw [List.concat_eq_append] at h ⊢
    obtain ⟨hseg, hhead, htail, hsize, hnodup, hcomp, hlive⟩ := h
    have hnodeP : getNode d.heap p.1
        = some ⟨none, some q.1, p.2⟩ := by
      have := seg_concat_last hseg
      rwa [lastOr_concat] at this
    have hpLt : p.1 < d.heap.length := getNode_lt_length hnodeP
    rcases seg_append.mp hseg with ⟨s1, _⟩
    have hnodeQ : getNode d.heap q.1 = some ⟨some p.1, lastOr none l₂, q.2⟩ :=
      seg_concat_last s1
    have hqLt : q.1 < d.heap.length := getNode_lt_length hnodeQ
    have ht : d.tail = some p.1 := by rw [htail, lastOr_concat]
    have hnodupA : (addrs (l₂ ++ [q])).Nodup ∧ p.1 ∉ addrs (l₂ ++ [q]) := by
      rw [addrs_append, addrs_cons, addrs_nil, nodup_concat] at hnodup
      exact hnodup
    have hnodupB : (addrs l₂).Nodup ∧ q.1 ∉ addrs l₂ := by
      have := hnodupA.1
      rw [addrs_append, addrs_cons, addrs_nil, nodup_concat] at this
      exact this
    have hqp : q.1 ≠ p.1 := by
      intro hc
      refine hnodupA.2 ?_
      rw [addrs_append, ← hc]
      refine List.mem_append_right _ ?_
      rw [addrs_cons]
      exact List.mem_cons_self _ _
    have hp_notin2 : p.1 ∉ addrs l₂ := fun hc =>
      hnodupA.2 (by rw [addrs_append]; exact List.mem_append_left _ hc)
    have hg1 : getNode (d.heap.set p.1 (some (⟨none, none, p.2⟩ : DequeNode E)))
        q.1 = some ⟨some p.1, lastOr none l₂, q.2⟩ := by
      rw [getNode_set_ne _ hqp]; exact hnodeQ
    have hmid : popBackMid d = some (p.1, (⟨none, some q.1, p.2⟩ : DequeNode E),
        ⟨(d.heap.set p.1 (some (⟨none, none, p.2⟩ : DequeNode E))).set q.1
            (some (⟨none, lastOr none l₂, q.2⟩ : DequeNode E)),
          d.head, some q.1, d.size - 1⟩) := by
      simp only [popBackMid, ht, hnodeP, setNext_eq hg1]
    have hpop : pop_back d = (some p.2,
        ⟨((d.heap.set p.1 (some (⟨none, none, p.2⟩ : DequeNode E))).set q.1
            (some (⟨none, lastOr none l₂, q.2⟩ : DequeNode E))).set p.1 none,
          d.head, some q.1, d.size - 1⟩) := by
      simp only [pop_back, hmid]
    have gQB : getNode ((d.heap.set p.1 (some (⟨none, none, p.2⟩ : DequeNode E))).set
        q.1 (some (⟨none, lastOr none l₂, q.2⟩ : DequeNode E))) q.1
        = some ⟨none, lastOr none l₂, q.2⟩ := by
      rw [getNode_set_self (by rw [List.length_set]; exact hqLt) _]
    have gQC : getNode (((d.heap.set p.1 (some (⟨none, none, p.2⟩ : DequeNode E))).set
        q.1 (some (⟨none, lastOr none l₂, q.2⟩ : DequeNode E))).set p.1 none) q.1
        = some ⟨none, lastOr none l₂, q.2⟩ := by
      rw [getNode_set_ne _ hqp]; exact gQB
    have gPB : getNode ((d.heap.set p.1 (some (⟨none, none, p.2⟩ : DequeNode E))).set
        q.1 (some (⟨none, lastOr none l₂, q.2⟩ : DequeNode E))) p.1
        = some ⟨none, none, p.2⟩ := by
      rw [getNode_set_ne _ (Ne.symm hqp), getNode_set_self hpLt _]
    have frameC : ∀ r ∈ l₂, getNode (((d.heap.set p.1
          (some (⟨none, none, p.2⟩ : DequeNode E))).set q.1
          (some (⟨none, lastOr none l₂, q.2⟩ : DequeNode E))).set p.1 none) r.1
        = getNode d.heap r.1 := by
      intro r hr
      have h1 : r.1 ∈ addrs l₂ := List.mem_map.mpr ⟨r, hr, rfl⟩
      have h2 : r.1 ≠ p.1 := fun hc => hp_notin2 (hc ▸ h1)
      have h3 : r.1 ≠ q.1 := fun hc => hnodupB.2 (hc ▸ h1)
      rw [getNode_set_ne _ h2, getNode_set_ne _ h3, getNode_set_ne _ h2]
    rcases seg_append.mp s1 with ⟨s2, _⟩
    refine ⟨_, hpop, ⟨?_, ?_, ?_, ?_, hnodupA.1, ?_, ?_⟩, ?_⟩
    · rw [seg_append]
      exact ⟨seg_frame s2 frameC, seg_cons.mpr ⟨gQC, seg_nil _ _ _⟩⟩
    · rw [hhead, headOr_concat, headOr_concat, headOr_concat]
    · rw [lastOr_concat]
    · rw [hsize]; simp
    · intro a ha
      by_cases hap : a = p.1
      · subst hap
        rw [getNode_set_self (by simpa using hpLt) _] at ha
        exact absurd ha (by simp)
      · by_cases haq : a = q.1
        · subst haq
          rw [addrs_append]
          refine List.mem_append_right _ ?_
          rw [addrs_cons]
          exact List.mem_cons_self _ _
        · rw [getNode_set_ne _ hap, getNode_set_ne _ haq,
            getNode_set_ne _ hap] at ha
          have := hcomp a ha
          rw [addrs_append, addrs_cons, addrs_nil] at this
          rcases List.mem_append.mp this with h1 | h2
          · exact h1
          · rcases List.mem_cons.mp h2 with h3 | h4
            · exact absurd h3 hap
            · exact absurd h4 (List.not_mem_nil _)
    · show liveCount (((d.heap.set p.1
          (some (⟨none, none, p.2⟩ : DequeNode E))).set q.1
          (some (⟨none, lastOr none l₂, q.2⟩ : DequeNode E))).set p.1 none)
        = (l₂ ++ [q]).length
      have l1 : liveCount (d.heap.set p.1
          (some (⟨none, none, p.2⟩ : DequeNode E))) = liveCount d.heap :=
        liveCount_set_some hnodeP _
      have l2 := liveCount_set_some hg1
        (⟨none, lastOr none l₂, q.2⟩ : DequeNode E)
      have l3 := liveCount_set_none gPB
      rw [l2, l1, hlive] at l3
      simp only [List.length_append, List.length_cons, List.length_nil] at l3 ⊢
      omega
    · rw [popBackUnwrapCount, hmid, Option.map_some']
      have hz : refsTo (⟨(d.heap.set p.1
          (some (⟨none, none, p.2⟩ : DequeNode E))).set q.1
          (some (⟨none, lastOr none l₂, q.2⟩ : DequeNode E)),
          d.head, some q.1, d.size - 1⟩ : Deque E) p.1 = 0 := by
        have hhead0 : d.head ≠ some p.1 := by
          intro hc
          rw [hhead, headOr_concat] at hc
          exact hnodupA.2 (headOr_mem (by simp) hc)
        have hheap0 : heapRefs ((d.heap.set p.1
            (some (⟨none, none, p.2⟩ : DequeNode E))).set q.1
            (some (⟨none, lastOr none l₂, q.2⟩ : DequeNode E))) p.1 = 0 := by
          apply heapRefs_eq_zero
          intro i n hn
          by_cases hip : i = p.1
          · subst hip
            rw [gPB] at hn
            cases hn
            exact ⟨by simp, by simp⟩
          · by_cases hiq : i = q.1
            · subst hiq
              rw [gQB] at hn
              cases hn
              refine ⟨by simp, ?_⟩
              intro hc
              cases hl : l₂ with
              | nil =>
                  subst hl
                  exact Option.noConfusion (show (none : Option Nat) = some p.1
                    from hc)
              | cons r l₃ =>
                  subst hl
                  have hc2 : lastOr none (r :: l₃) = some p.1 := hc
                  exact hp_notin2 (lastOr_mem hc2 (by simp))
            · rw [getNode_set_ne _ hiq, getNode_set_ne _ hip] at hn
              have hmm := hcomp i (by simp [hn])
              rw [addrs_append, addrs_cons, addrs_nil] at hmm
              have hi_l2 : i ∈ addrs l₂ := by
                rcases List.mem_append.mp hmm with h1 | h2
                · rw [addrs_append, addrs_cons, addrs_nil] at h1
                  rcases List.mem_append.mp h1 with h3 | h4
                  · exact h3
                  · rcases List.mem_cons.mp h4 with h5 | h6
                    · exact absurd h5 hiq
                    · exact absurd h6 (List.not_mem_nil _)
                · rcases List.mem_cons.mp h2 with h3 | h4
                  · exact absurd h3 hip
                  · exact absurd h4 (List.not_mem_nil _)
              rcases mem_addrs.mp hi_l2 with ⟨e', he'⟩
              exact seg_no_ref s2 hp_notin2 (by simp)
                (fun hc => hqp (Option.some.inj hc)) (i, e') he' n hn
        simp [refsTo, hheap0, hhead0, hqp]
      rw [hz]

/-! ## Invariance and structural consequences -/

theorem lastOr_none_eq (l : List (Nat × E)) :
    lastOr none l = (addrs l).getLast? := by
  unfold lastOr
  cases (addrs l).getLast? <;> rfl

theorem headOr_none_eq (l : List (Nat × E)) :
    headOr l none = (addrs l)[0]? := by
  cases l with
  | nil => rfl
  | cons p l => simp [addrs_cons, headOr]

theorem inv_new : Inv (new : Deque E) := ⟨[], rep_new⟩

theorem inv_push {d : Deque E} (e : E) (h : Inv d) : Inv (push e d) := by
  obtain ⟨l, hrep⟩ := h
  exact ⟨_, rep_push e hrep⟩

theorem inv_push_back {d : Deque E} (e : E) (h : Inv d) : Inv (push_back e d) := by
  obtain ⟨l, hrep⟩ := h
  exact ⟨_, rep_push_back e hrep⟩

theorem inv_pop {d : Deque E} (h : Inv d) : Inv (pop d).2 := by
  obtain ⟨l, hrep⟩ := h
  cases l with
  | nil =>
      rw [(rep_pop_nil hrep).1]
      exact ⟨[], hrep⟩
  | cons p l' =>
      obtain ⟨d2, hpop, hrep2, _⟩ := rep_pop hrep
      rw [hpop]
      exact ⟨l', hrep2⟩

theorem inv_pop_back {d : Deque E} (h : Inv d) : Inv (pop_back d).2 := by
  obtain ⟨l, hrep⟩ := h
  rcases List.eq_nil_or_concat l with rfl | ⟨l₂, q, rfl⟩
  · rw [(rep_pop_back_nil hrep).1]
    exact ⟨[], hrep⟩
  · rw [List.concat_eq_append] at hrep
    obtain ⟨d2, hpop, hrep2, _⟩ := rep_pop_back hrep
    rw [hpop]
    exact ⟨l₂, hrep2⟩

theorem reachable_inv {d : Deque E} (h : Reachable d) : Inv d := by
  induction h with
  | base => exact inv_new
  | pushF e _ ih => exact inv_push e ih
  | pushB e _ ih => exact inv_push_back e ih
  | popF _ ih => exact inv_pop ih
  | popB _ ih => exact inv_pop_back ih

theorem rep_structuralOK {d : Deque E} {l : List (Nat × E)} (h : Rep d l) :
    StructuralOK d := by
  obtain ⟨hseg, hhead, htail, hsize, hnodup, hcomp, hlive⟩ := h
  have hfwd : 0 < d.size → (stepNext d.heap)^[d.size - 1] d.head = d.tail := by
    intro hpos
    have hne : l ≠ [] := by
      intro hc
      rw [hc] at hsize
      simp at hsize
      omega
    have hlt : l.length - 1 < l.length := by
      cases l with
      | nil => exact absurd rfl hne
      | cons p l' => simp
    have hw := seg_walk hseg (l.length - 1) hlt
    rw [hhead, htail, hsize, hw, lastOr_none_eq, List.getLast?_eq_getElem?,
      addrs_length]
  have hbwd : 0 < d.size → (stepPrev d.heap)^[d.size - 1] d.tail = d.head := by
    intro hpos
    have hne : l ≠ [] := by
      intro hc
      rw [hc] at hsize
      simp at hsize
      omega
    have hlt : l.length - 1 < l.length := by
      cases l with
      | nil => exact absurd rfl hne
      | cons p l' => simp
    have hw := (seg_walk_rev hseg).1 (l.length - 1) hlt
    rw [hhead, htail, hsize, lastOr_none_eq, hw, headOr_none_eq,
      List.getElem?_reverse (by rw [addrs_length]; exact hlt), addrs_length]
    congr 1
    omega
  refine ⟨?_, ?_, ?_, fun hpos => ⟨hfwd hpos, hbwd hpos⟩, ?_, ?_⟩
  · constructor
    · intro hs0
      rw [hsize] at hs0
      rw [List.length_eq_zero] at hs0
      subst hs0
      exact ⟨hhead, htail⟩
    · rintro ⟨hh, _⟩
      cases l with
      | nil => rw [hsize]; rfl
      | cons p l' =>
          rw [hhead] at hh
          exact Option.noConfusion hh
  · intro hpos
    have hne : l ≠ [] := by
      intro hc
      rw [hc] at hsize
      simp at hsize
      omega
    constructor
    · cases l with
      | nil => exact absurd rfl hne
      | cons p l' =>
          rcases seg_cons.mp hseg with ⟨hnodeP, _⟩
          exact ⟨p.1, _, hhead, hnodeP, rfl⟩
    · rcases List.eq_nil_or_concat l with rfl | ⟨l₂, q, rfl⟩
      · exact absurd rfl hne
      · rw [List.concat_eq_append] at htail hseg
        refine ⟨q.1, _, by rw [htail, lastOr_concat], seg_concat_last hseg, rfl⟩
  · intro a b na nb ha hb
    constructor
    · intro hnext
      have hmema : a ∈ addrs l := hcomp a (by simp [ha])
      obtain ⟨nb2, hgb, hprev⟩ := seg_next_prev hseg hmema ha hnext
      rw [hb] at hgb
      cases hgb
      exact hprev
    · intro hprev
      have hmemb : b ∈ addrs l := hcomp b (by simp [hb])
      rcases seg_prev_next hseg hmemb hb hprev with ⟨_, hpr⟩ | ⟨na2, hga, hnx⟩
      · exact absurd hpr (by simp)
      · rw [ha] at hga
        cases hga
        exact hnx
  · cases l with
    | nil =>
        have hh : d.head = none := hhead
        rw [hsize, hh]
        rfl
    | cons p l' =>
        have hpos : 0 < d.size := by rw [hsize]; simp
        obtain ⟨m, hm⟩ : ∃ m, d.size = m + 1 :=
          ⟨d.size - 1, by omega⟩
        have hstep := hfwd hpos
        rw [hm] at hstep ⊢
        simp only [Nat.add_sub_cancel] at hstep
        rw [Function.iterate_succ_apply', hstep]
        rcases List.eq_nil_or_concat (p :: l') with hc | ⟨l₂, q, hc⟩
        · exact absurd hc (by simp)
        · rw [List.concat_eq_append] at hc
          rw [hc] at hseg htail
          have hnodeQ := seg_concat_last hseg
          rw [htail, lastOr_concat]
          simp [stepPrev, stepNext, hnodeQ]
  · cases l with
    | nil =>
        have ht : d.tail = none := htail
        rw [hsize, ht]
        rfl
    | cons p l' =>
        have hw := (seg_walk_rev hseg).2 (by simp)
        rw [hsize, htail, lastOr_none_eq]
        rw [show (p :: l').length = (addrs (p :: l')).length by
          rw [addrs_length]] at hw
        rw [← lastOr_none_eq] at hw
        rw [lastOr_none_eq, addrs_length] at hw
        exact hw

/-! ## Sequences of operations -/

theorem rep_popList : ∀ (k : Nat) {d : Deque E} {l : List (Nat × E)},
    Rep d l → k ≤ l.length →
      (popList k d).1 = ((elems l).take k).map some ∧
      Rep (popList k d).2 (l.drop k) := by
  intro k
  induction k with
  | zero =>
      intro d l h _
      exact ⟨by simp [popList], by simpa [popList] using h⟩
  | succ k ih =>
      intro d l h hk
      cases l with
      | nil => simp at hk
      | cons p l' =>
          obtain ⟨d2, hpop, hrep2, _⟩ := rep_pop h
          have hk2 : k ≤ l'.length := by simpa using hk
          obtain ⟨ih1, ih2⟩ := ih hrep2 hk2
          constructor
          · show (pop d).1 :: (popList k (pop d).2).1 = _
            rw [hpop]
            show some p.2 :: (popList k d2).1 = _
            rw [ih1]
            simp [elems]
          · show Rep (popList k (pop d).2).2 _
            rw [hpop]
            simpa using ih2

theorem rep_popBackList : ∀ (k : Nat) {d : Deque E} {l : List (Nat × E)},
    Rep d l → k ≤ l.length →
      (popBackList k d).1 = ((elems l).reverse.take k).map some ∧
      Rep (popBackList k d).2 (l.take (l.length - k)) := by
  intro k
  induction k with
  | zero =>
      intro d l h _
      refine ⟨by simp [popBackList], ?_⟩
      simpa [popBackList, List.take_length] using h
  | succ k ih =>
      intro d l h hk
      rcases List.eq_nil_or_concat l with rfl | ⟨l₂, q, rfl⟩
      · simp at hk
      · rw [List.concat_eq_append] at h hk ⊢
        obtain ⟨d2, hpop, hrep2, _⟩ := rep_pop_back h
        have hk2 : k ≤ l₂.length := by simp at hk; omega
        obtain ⟨ih1, ih2⟩ := ih hrep2 hk2
        constructor
        · show (pop_back d).1 :: (popBackList k (pop_back d).2).1 = _
          rw [hpop]
          show some q.2 :: (popBackList k d2).1 = _
          rw [ih1]
          simp [elems]
        · show Rep (popBackList k (pop_back d).2).2 _
          rw [hpop]
          show Rep (popBackList k d2).2 _
          have harith : (l₂ ++ [q]).length - (k + 1) = l₂.length - k := by
            simp only [List.length_append, List.length_cons, List.length_nil]
            omega
          rw [harith, List.take_append_of_le_length (by omega)]
          exact ih2

theorem rep_pushAll : ∀ (vs : List E) {d : Deque E} {l : List (Nat × E)},
    Rep d l →
      ∃ l2, Rep (pushAll vs d) l2 ∧ elems l2 = vs.reverse ++ elems l := by
  intro vs
  induction vs with
  | nil => exact fun h => ⟨_, h, by simp⟩
  | cons v vs ih =>
      intro d l h
      obtain ⟨l2, hrep, helems⟩ := ih (rep_push v h)
      refine ⟨l2, hrep, ?_⟩
      rw [helems]
      simp [elems]

theorem rep_pushBackAll : ∀ (vs : List E) {d : Deque E} {l : List (Nat × E)},
    Rep d l →
      ∃ l2, Rep (pushBackAll vs d) l2 ∧ elems l2 = elems l ++ vs := by
  intro vs
  induction vs with
  | nil => exact fun h => ⟨_, h, by simp⟩
  | cons v vs ih =>
      intro d l h
      obtain ⟨l2, hrep, helems⟩ := ih (rep_push_back v h)
      refine ⟨l2, hrep, ?_⟩
      rw [helems]
      simp [elems]

theorem push_size (e : E) (d : Deque E) : (push e d).size = d.size + 1 := by
  rcases hh : d.head with _ | a <;> simp [push, hh]

theorem push_back_size (e : E) (d : Deque E) :
    (push_back e d).size = d.size + 1 := by
  rcases ht : d.tail with _ | a <;> simp [push_back, ht]

theorem pop_cases {d : Deque E} (h : Inv d) :
    ((pop d).1.isSome = true ∧ (pop d).2.size + 1 = d.size) ∨
    (pop d = (none, d) ∧ d.size = 0) := by
  obtain ⟨l, hrep⟩ := h
  cases l with
  | nil =>
      refine Or.inr ⟨(rep_pop_nil hrep).1, ?_⟩
      rw [hrep.2.2.2.1]
      rfl
  | cons p l' =>
      obtain ⟨d2, hpop, hrep2, _⟩ := rep_pop hrep
      refine Or.inl ⟨by rw [hpop]; rfl, ?_⟩
      rw [hpop]
      show d2.size + 1 = d.size
      rw [hrep2.2.2.2.1, hrep.2.2.2.1]
      rfl

theorem pop_back_cases {d : Deque E} (h : Inv d) :
    ((pop_back d).1.isSome = true ∧ (pop_back d).2.size + 1 = d.size) ∨
    (pop_back d = (none, d) ∧ d.size = 0) := by
  obtain ⟨l, hrep⟩ := h
  rcases List.eq_nil_or_concat l with rfl | ⟨l₂, q, rfl⟩
  · refine Or.inr ⟨(rep_pop_back_nil hrep).1, ?_⟩
    rw [hrep.2.2.2.1]
    rfl
  · rw [List.concat_eq_append] at hrep
    obtain ⟨d2, hpop, hrep2, _⟩ := rep_pop_back hrep
    refine Or.inl ⟨by rw [hpop]; rfl, ?_⟩
    rw [hpop]
    show d2.size + 1 = d.size
    rw [hrep2.2.2.2.1, hrep.2.2.2.1]
    simp

theorem runCounts_spec : ∀ (ops : List (DequeOp E)) {d : Deque E}, Inv d →
    Inv (runCounts d ops).1 ∧
    (runCounts d ops).1.size + (runCounts d ops).2.2
      = d.size + (runCounts d ops).2.1 := by
  intro ops
  induction ops with
  | nil => exact fun h => ⟨h, rfl⟩
  | cons op ops ih =>
      intro d h
      cases op with
      | pushFront e =>
          obtain ⟨hInv, hEq⟩ := ih (inv_push e h)
          refine ⟨hInv, ?_⟩
          show (runCounts (push e d) ops).1.size + (runCounts (push e d) ops).2.2
            = d.size + ((runCounts (push e d) ops).2.1 + 1)
          rw [push_size] at hEq
          omega
      | pushBack e =>
          obtain ⟨hInv, hEq⟩ := ih (inv_push_back e h)
          refine ⟨hInv, ?_⟩
          show (runCounts (push_back e d) ops).1.size
              + (runCounts (push_back e d) ops).2.2
            = d.size + ((runCounts (push_back e d) ops).2.1 + 1)
          rw [push_back_size] at hEq
          omega
      | popFront =>
          obtain ⟨hInv, hEq⟩ := ih (inv_pop h)
          refine ⟨hInv, ?_⟩
          show (runCounts (pop d).2 ops).1.size
              + (if (pop d).1.isSome then (runCounts (pop d).2 ops).2.2 + 1
                  else (runCounts (pop d).2 ops).2.2)
            = d.size + (runCounts (pop d).2 ops).2.1
          rcases pop_cases h with ⟨hsome, hsz⟩ | ⟨hnone, hsz⟩
          · rw [if_pos hsome]
            omega
          · have h2 : (pop d).2 = d := by rw [hnone]
            rw [if_neg (by rw [hnone]; simp)]
            rw [h2] at hEq ⊢
            omega
      | popBack =>
          obtain ⟨hInv, hEq⟩ := ih (inv_pop_back h)
          refine ⟨hInv, ?_⟩
          show (runCounts (pop_back d).2 ops).1.size
              + (if (pop_back d).1.isSome then (runCounts (pop_back d).2 ops).2.2 + 1
                  else (runCounts (pop_back d).2 ops).2.2)
            = d.size + (runCounts (pop_back d).2 ops).2.1
          rcases pop_back_cases h with ⟨hsome, hsz⟩ | ⟨hnone, hsz⟩
          · rw [if_pos hsome]
            omega
          · have h2 : (pop_back d).2 = d := by rw [hnone]
            rw [if_neg (by rw [hnone]; simp)]
            rw [h2] at hEq ⊢
            omega

/-! ## Teardown by reference counting -/

theorem getNode_eq_getElem {hp : Heap E} {a : Nat} (h : a < hp.length) :
    getNode hp a = hp[a] := by
  rw [getNode_eq, List.getElem?_eq_getElem h]
  rfl

theorem sweepOnce_heap_len (d : Deque E) :
    (sweepOnce d).heap.length = d.heap.length := by
  show ((List.range d.heap.length).map (sweepCell d)).length = _
  simp

theorem getNode_sweepOnce {d : Deque E} {i : Nat} (h : i < d.heap.length) :
    getNode (sweepOnce d).heap i = sweepCell d i := by
  show getNode ((List.range d.heap.length).map (sweepCell d)) i = _
  rw [getNode_eq, List.getElem?_map, List.getElem?_range h]
  rfl

theorem sweepOnce_id {d : Deque E}
    (h : ∀ i n, getNode d.heap i = some n → refsTo d i ≠ 0) :
    sweepOnce d = d := by
  have hheap : (List.range d.heap.length).map (sweepCell d) = d.heap := by
    apply List.ext_getElem (by simp)
    intro n h1 h2
    rw [List.getElem_map, List.getElem_range]
    unfold sweepCell
    rw [getNode_eq_getElem h2]
    cases hc : d.heap[n] with
    | none => rfl
    | some n2 =>
        show (if refsTo d n = 0 then none else some n2) = some n2
        rw [if_neg (h n n2 (by rw [getNode_eq_getElem h2, hc]))]
  show (⟨(List.range d.heap.length).map (sweepCell d),
    d.head, d.tail, d.size⟩ : Deque E) = d
  rw [hheap]

theorem sweepN_fix {d : Deque E} (h : sweepOnce d = d) :
    ∀ k, sweepN k d = d := by
  intro k
  induction k with
  | zero => rfl
  | succ k ih =>
      show sweepN k (sweepOnce d) = d
      rw [h, ih]

theorem liveCount_zero_of_allDead {hp : Heap E}
    (h : ∀ i n, getNode hp i = some n → False) : liveCount hp = 0 := by
  apply List.sum_eq_zero
  intro x hx
  rcases List.mem_map.mp hx with ⟨c, hc, rfl⟩
  cases c with
  | none => rfl
  | some n2 =>
      rcases List.mem_iff_getElem.mp hc with ⟨i, hi, hgi⟩
      exact (h i n2 (by rw [getNode_eq_getElem hi, hgi])).elim

theorem sweepOnce_allDead {d : Deque E}
    (h : ∀ i n, getNode d.heap i = some n → False) :
    ∀ i n, getNode (sweepOnce d).heap i = some n → False := by
  intro i n hi
  by_cases hlt : i < d.heap.length
  · rw [getNode_sweepOnce hlt] at hi
    unfold sweepCell at hi
    cases hg : getNode d.heap i with
    | none => rw [hg] at hi; exact Option.noConfusion hi
    | some n2 => exact h i n2 hg
  · rw [getNode_ge (by rw [sweepOnce_heap_len]; omega)] at hi
    exact Option.noConfusion hi

theorem sweepN_allDead : ∀ (k : Nat) {d : Deque E},
    (∀ i n, getNode d.heap i = some n → False) →
    ∀ i n, getNode (sweepN k d).heap i = some n → False := by
  intro k
  induction k with
  | zero => intro d h; exact h
  | succ k ih => intro d h; exact ih (sweepOnce_allDead h)

theorem seg_neighbor {hp : Heap E} :
    ∀ {l : List (Nat × E)} {pr nx : Option Nat}, seg hp pr l nx →
      2 ≤ l.length → ∀ i, i ∈ addrs l →
      ∃ j nj, getNode hp j = some nj ∧
        (nj.next = some i ∨ nj.prev = some i) := by
  intro l
  induction l with
  | nil => intro pr nx _ h2; simp at h2
  | cons p l ih =>
      intro pr nx h h2 i hi
      rcases seg_cons.mp h with ⟨hnodeP, hrest⟩
      cases l with
      | nil => simp at h2
      | cons q l' =>
          rcases seg_cons.mp hrest with ⟨hnodeQ, _⟩
          rw [addrs_cons] at hi
          rcases List.mem_cons.mp hi with rfl | hi2
          · exact ⟨q.1, _, hnodeQ, Or.inr rfl⟩
          · rw [addrs_cons] at hi2
            rcases List.mem_cons.mp hi2 with rfl | hi3
            · exact ⟨p.1, _, hnodeP, Or.inl rfl⟩
            · cases l' with
              | nil => exact absurd hi3 (by simp [addrs_nil])
              | cons r l'' =>
                  refine ih hrest (by simp) i ?_
                  rw [addrs_cons]
                  exact List.mem_cons_of_mem _ hi3

theorem rep_drop_leak {d : Deque E} {l : List (Nat × E)} (h : Rep d l)
    (h2 : 2 ≤ l.length) : dropDeque d = d.heap := by
  obtain ⟨hseg, hhead, htail, hsize, hnodup, hcomp, hlive⟩ := h
  have hfix : sweepOnce (dropRoots d) = dropRoots d := by
    apply sweepOnce_id
    intro i n hn
    have hn2 : getNode d.heap i = some n := hn
    have hi : i ∈ addrs l := hcomp i (by simp [hn2])
    obtain ⟨j, nj, hj, hor⟩ := seg_neighbor hseg h2 i hi
    have h1 : 1 ≤ refsFromNode nj i := by
      rcases hor with h3 | h3 <;> simp [refsFromNode, h3]
    have hle := refsFromNode_le_heapRefs hj i
    have heq : refsTo (dropRoots d) i = heapRefs d.heap i := by
      simp [refsTo, dropRoots]
    omega
  show (sweepN d.heap.length (dropRoots d)).heap = d.heap
  rw [sweepN_fix hfix]
  rfl

theorem rep_drop_free {d : Deque E} {l : List (Nat × E)} (h : Rep d l)
    (h2 : l.length ≤ 1) : liveCount (dropDeque d) = 0 := by
  obtain ⟨hseg, hhead, htail, hsize, hnodup, hcomp, hlive⟩ := h
  cases l with
  | nil =>
      have hdead : ∀ i n, getNode d.heap i = some n → False := by
        intro i n hn
        have := hcomp i (by simp [hn])
        rw [addrs_nil] at this
        exact List.not_mem_nil _ this
      have hdead2 : ∀ i n, getNode (dropRoots d).heap i = some n → False := hdead
      show liveCount (sweepN d.heap.length (dropRoots d)).heap = 0
      apply liveCount_zero_of_allDead
      intro i n hn
      exact sweepN_allDead d.heap.length hdead2 i n hn
  | cons p l' =>
      have hl' : l' = [] := by
        cases l' with
        | nil => rfl
        | cons r l'' => simp at h2
      subst hl'
      rcases seg_cons.mp hseg with ⟨hnodeP, _⟩
      have hpLt : p.1 < d.heap.length := getNode_lt_length hnodeP
      have honly : ∀ i n, getNode d.heap i = some n → i = p.1 := by
        intro i n hn
        have hi := hcomp i (by simp [hn])
        rw [addrs_cons, addrs_nil] at hi
        rcases List.mem_cons.mp hi with h1 | h1
        · exact h1
        · exact absurd h1 (List.not_mem_nil _)
      have hz : refsTo (dropRoots d) p.1 = 0 := by
        have hheap0 : heapRefs d.heap p.1 = 0 := by
          apply heapRefs_eq_zero
          intro j m hm
          have hjp : j = p.1 := honly j m hm
          subst hjp
          rw [hm] at hnodeP
          cases hnodeP
          exact ⟨by simp [headOr], by simp⟩
        simp [refsTo, dropRoots, hheap0]
      have hdead1 : ∀ i n,
          getNode (sweepOnce (dropRoots d)).heap i = some n → False := by
        intro i n hn
        by_cases hlt : i < (dropRoots d).heap.length
        · rw [getNode_sweepOnce hlt] at hn
          unfold sweepCell at hn
          cases hg : getNode (dropRoots d).heap i with
          | none => rw [hg] at hn; exact Option.noConfusion hn
          | some n2 =>
              rw [hg] at hn
              have hg2 : getNode d.heap i = some n2 := hg
              have hip : i = p.1 := honly i n2 hg2
              subst hip
              have hn2 : (if refsTo (dropRoots d) p.1 = 0 then none
                  else some n2) = some n := hn
              rw [if_pos hz] at hn2
              exact Option.noConfusion hn2
        · rw [getNode_ge (by rw [sweepOnce_heap_len]; omega)] at hn
          exact Option.noConfusion hn
      obtain ⟨m, hm⟩ : ∃ m, d.heap.length = m + 1 :=
        ⟨d.heap.length - 1, by omega⟩
      show liveCount (sweepN d.heap.length (dropRoots d)).heap = 0
      rw [hm]
      apply liveCount_zero_of_allDead
      intro i n hn
      exact sweepN_allDead m hdead1 i n hn

/-! ## The claims -/

/-- Claim C1, counterexample: pushing two elements and then dropping the
deque leaves both nodes allocated (`liveCount` 2, not 0), refuting the claim
that teardown releases every node and leaks nothing. -/
theorem C1_counterexample :
    liveCount (dropDeque (push 1 (push 0 (new : Deque Nat)))) = 2 ∧
    liveCount (dropDeque (push 1 (push 0 (new : Deque Nat)))) ≠ 0 := by
  constructor
  · decide
  · decide

/-- Claim C1, amended: dropping the deque (which has no `Drop` implementation
and whose `next`/`prev` links are both strong) frees every node only when it
holds at most one element; when `size ≥ 2` the reference-counting teardown
frees nothing at all — the heap is unchanged and all `size` nodes leak.
No teardown recursion occurs either way, so the stack-growth part of the
claim holds vacuously. -/
theorem C1_teardown_leaks (E : Type) (d : Deque E) (h : Inv d) :
    (d.size ≤ 1 → liveCount (dropDeque d) = 0) ∧
    (2 ≤ d.size → dropDeque d = d.heap ∧ liveCount (dropDeque d) = d.size) := by
  obtain ⟨l, hrep⟩ := h
  have hsize : d.size = l.length := hrep.2.2.2.1
  constructor
  · intro hle
    exact rep_drop_free hrep (by omega)
  · intro hge
    have hleak := rep_drop_leak hrep (by omega)
    refine ⟨hleak, ?_⟩
    rw [hleak, hrep.2.2.2.2.2.2, hsize]

/-- Witness for C1 (amended) at a concrete two-element deque. -/
theorem C1_teardown_leaks_witness :
    dropDeque (push 1 (push 0 (new : Deque Nat)))
        = (push 1 (push 0 (new : Deque Nat))).heap ∧
    liveCount (dropDeque (push 1 (push 0 (new : Deque Nat))))
        = (push 1 (push 0 (new : Deque Nat))).size :=
  (C1_teardown_leaks Nat _ ⟨_, rep_push 1 (rep_push 0 rep_new)⟩).2 (by decide)

/-- Claim C2: `new` establishes and every public operation (`push`,
`push_back`, `pop`, `pop_back`) preserves the structural invariant, and the
invariant entails all claimed structural properties: `size = 0` iff both ends
absent; the head cell's `prev` and the tail cell's `next` absent; adjacent
`next`/`prev` links mutually consistent; and the `next` walk from `head`
(resp. the `prev` walk from `tail`) visits exactly `size` cells, ending at
`tail` (resp. `head`) and falling off to absence right after. -/
theorem C2_invariants (E : Type) :
    Inv (new : Deque E) ∧
    (∀ (d : Deque E) (e : E), Inv d → Inv (push e d) ∧ Inv (push_back e d)) ∧
    (∀ d : Deque E, Inv d → Inv (pop d).2 ∧ Inv (pop_back d).2) ∧
    (∀ d : Deque E, Inv d → StructuralOK d) :=
  ⟨inv_new, fun _ e h => ⟨inv_push e h, inv_push_back e h⟩,
   fun _ h => ⟨inv_pop h, inv_pop_back h⟩,
   fun _ h => by obtain ⟨l, hrep⟩ := h; exact rep_structuralOK hrep⟩

/-- Witness for C2 at concrete states. -/
theorem C2_invariants_witness :
    (Inv (push 5 (new : Deque Nat)) ∧ Inv (push_back 5 (new : Deque Nat))) ∧
    StructuralOK (push 5 (new : Deque Nat)) :=
  ⟨(C2_invariants Nat).2.1 new 5 ⟨[], rep_new⟩,
   (C2_invariants Nat).2.2.2 (push 5 new) ⟨_, rep_push 5 rep_new⟩⟩

/-- Claim C3: pushing `v1..vn` with `push` and popping `k ≤ n` times with
`pop` yields the values in reverse insertion order with `len` decreasing by
exactly one per pop (reaching 0 at `k = n`); symmetrically for
`push_back`/`pop_back`. -/
theorem C3_lifo_laws (E : Type) (vs : List E) (k : Nat) (hk : k ≤ vs.length) :
    (popList k (pushAll vs new)).1 = ((vs.reverse).take k).map some ∧
    len (popList k (pushAll vs new)).2 = vs.length - k ∧
    (popBackList k (pushBackAll vs new)).1 = ((vs.reverse).take k).map some ∧
    len (popBackList k (pushBackAll vs new)).2 = vs.length - k := by
  obtain ⟨l1, hrep1, he1⟩ := rep_pushAll vs (rep_new (E := E))
  obtain ⟨l2, hrep2, he2⟩ := rep_pushBackAll vs (rep_new (E := E))
  have hlen1 : l1.length = vs.length := by
    have := congrArg List.length he1
    rw [elems_length] at this
    simpa [elems_nil] using this
  have hlen2 : l2.length = vs.length := by
    have := congrArg List.length he2
    rw [elems_length] at this
    simpa [elems_nil] using this
  obtain ⟨ha1, ha2⟩ := rep_popList k hrep1 (by omega)
  obtain ⟨hb1, hb2⟩ := rep_popBackList k hrep2 (by omega)
  refine ⟨?_, ?_, ?_, ?_⟩
  · rw [ha1, he1]
    simp [elems_nil]
  · show (popList k (pushAll vs new)).2.size = vs.length - k
    rw [ha2.2.2.2.1]
    simp [hlen1]
  · rw [hb1, he2]
    simp [elems_nil]
  · show (popBackList k (pushBackAll vs new)).2.size = vs.length - k
    rw [hb2.2.2.2.1, List.length_take]
    omega

/-- Witness for C3 at a concrete two-element sequence. -/
theorem C3_lifo_laws_witness :
    (popList 2 (pushAll [10, 20] (new : Deque Nat))).1
        = (([10, 20].reverse).take 2).map some ∧
    len (popList 2 (pushAll [10, 20] (new : Deque Nat))).2
        = [10, 20].length - 2 ∧
    (popBackList 2 (pushBackAll [10, 20] (new : Deque Nat))).1
        = (([10, 20].reverse).take 2).map some ∧
    len (popBackList 2 (pushBackAll [10, 20] (new : Deque Nat))).2
        = [10, 20].length - 2 :=
  C3_lifo_laws Nat [10, 20] 2 (by decide)

/-- Claim C4: pushing 0..9 in increasing order, evens via `push` (front) and
odds via `push_back`, then popping from the front repeatedly yields exactly
8, 6, 4, 2, 0, 1, 3, 5, 7, 9, leaving the deque empty. -/
theorem C4_mixed_scenario :
    (popList 10 (List.foldl (fun d i => if i % 2 = 0 then push i d
        else push_back i d) (new : Deque Nat) (List.range 10))).1
      = [some 8, some 6, some 4, some 2, some 0, some 1, some 3, some 5,
         some 7, some 9] ∧
    len (popList 10 (List.foldl (fun d i => if i % 2 = 0 then push i d
        else push_back i d) (new : Deque Nat) (List.range 10))).2 = 0 := by
  constructor
  · decide
  · decide

/-- Claim C5: converting a sequence into the deque by repeated `push_back`
and draining front-to-back by repeated `pop` reproduces the original
sequence exactly, leaving the deque empty. -/
theorem C5_roundtrip (E : Type) (vs : List E) :
    (popList vs.length (pushBackAll vs new)).1 = vs.map some ∧
    len (popList vs.length (pushBackAll vs new)).2 = 0 := by
  obtain ⟨l2, hrep2, he2⟩ := rep_pushBackAll vs (rep_new (E := E))
  have hlen2 : l2.length = vs.length := by
    have := congrArg List.length he2
    rw [elems_length] at this
    simpa [elems_nil] using this
  obtain ⟨ha1, ha2⟩ := rep_popList vs.length hrep2 (by omega)
  constructor
  · rw [ha1, he2]
    simp [elems_nil]
  · show (popList vs.length (pushBackAll vs new)).2.size = 0
    rw [ha2.2.2.2.1]
    simp [hlen2]

/-- Claim C6: after any sequence of operations starting from `new`, `len`
equals the number of pushes minus the number of successful pops (stated both
as a sum and as the truncation-free subtraction). -/
theorem C6_size_counts (E : Type) (ops : List (DequeOp E)) :
    len (runCounts (new : Deque E) ops).1 + (runCounts (new : Deque E) ops).2.2
        = (runCounts (new : Deque E) ops).2.1 ∧
    len (runCounts (new : Deque E) ops).1
        = (runCounts (new : Deque E) ops).2.1
          - (runCounts (new : Deque E) ops).2.2 := by
  have hspec := (runCounts_spec ops (inv_new (E := E))).2
  have h0 : (new : Deque E).size = 0 := rfl
  constructor
  · show (runCounts (new : Deque E) ops).1.size + _ = _
    omega
  · show (runCounts (new : Deque E) ops).1.size = _
    omega

/-- Claim C7: the empty pop is the only exceptional condition and is
signalled by `none`, never by a panic: a fresh deque has `len` 0, both pops
on it return `none` and leave the state entirely unchanged, the
`Rc::try_unwrap` panic cannot fire, and the same holds for any invariant
state of size 0. -/
theorem C7_empty_pop (E : Type) :
    len (new : Deque E) = 0 ∧
    pop (new : Deque E) = (none, new) ∧
    pop_back (new : Deque E) = (none, new) ∧
    popPanics (new : Deque E) = false ∧
    popBackPanics (new : Deque E) = false ∧
    (∀ d : Deque E, Inv d → len d = 0 →
      pop d = (none, d) ∧ pop_back d = (none, d)) := by
  refine ⟨rfl, rfl, rfl, rfl, rfl, ?_⟩
  intro d h hlen
  obtain ⟨l, hrep⟩ := h
  have hnil : l = [] := by
    have hsz := hrep.2.2.2.1
    rw [show len d = d.size from rfl] at hlen
    rw [hlen] at hsz
    exact List.length_eq_zero.mp hsz.symm
  subst hnil
  exact ⟨(rep_pop_nil hrep).1, (rep_pop_back_nil hrep).1⟩

/-- Witness for C7's universally quantified part at the fresh deque. -/
theorem C7_empty_pop_witness :
    pop (new : Deque Nat) = (none, new) ∧
    pop_back (new : Deque Nat) = (none, new) :=
  (C7_empty_pop Nat).2.2.2.2.2 new ⟨[], rep_new⟩ rfl

/-- Claim C8: on a deque holding exactly one element `e` (stored in the cell
at address `a`), popping from either end produces exactly that element `e`,
leaves head and tail absent and `len` 0, and the two pops produce literally
identical results (the single-node collapse is handled identically from both
ends). -/
theorem C8_single_collapse (E : Type) (d : Deque E) (a : Nat) (e : E)
    (h : Rep d [(a, e)]) :
    pop_back d = pop d ∧
    (pop d).1 = some e ∧
    (pop d).2.head = none ∧ (pop d).2.tail = none ∧ len (pop d).2 = 0 := by
  rcases seg_cons.mp h.1 with ⟨hnodeP, _⟩
  have hh : d.head = some a := h.2.1
  have ht : d.tail = some a := by
    rw [h.2.2.1, show ([(a, e)] : List (Nat × E)) = [] ++ [(a, e)] from rfl,
      lastOr_concat]
  have hpop : pop d = (some e,
      ⟨(d.heap.set a (some (⟨none, none, e⟩ : DequeNode E))).set a none,
        none, none, d.size - 1⟩) := by
    simp only [pop, popMid, hh, hnodeP, headOr]
  have hpopb : pop_back d = (some e,
      ⟨(d.heap.set a (some (⟨none, none, e⟩ : DequeNode E))).set a none,
        none, none, d.size - 1⟩) := by
    simp only [pop_back, popBackMid, ht, hnodeP, headOr]
  have hsz0 : d.size - 1 = 0 := by
    rw [h.2.2.2.1]
    rfl
  refine ⟨by rw [hpop, hpopb], by rw [hpop], by rw [hpop],
    by rw [hpop], ?_⟩
  show (pop d).2.size = 0
  rw [hpop]
  exact hsz0

/-- Witness for C8 at a concrete one-element deque holding the value 7:
popping either end yields exactly `some 7`. -/
theorem C8_single_collapse_witness :
    pop_back (push 7 (new : Deque Nat)) = pop (push 7 (new : Deque Nat)) ∧
    (pop (push 7 (new : Deque Nat))).1 = some 7 ∧
    (pop (push 7 (new : Deque Nat))).2.head = none ∧
    (pop (push 7 (new : Deque Nat))).2.tail = none ∧
    len (pop (push 7 (new : Deque Nat))).2 = 0 :=
  C8_single_collapse Nat (push 7 new) 0 7 (rep_push 7 rep_new)

/-- Claim C9: the iterator's `next` is exactly `pop` and `next_back` is
exactly `pop_back`; draining either sequence takes exactly `len` steps,
leaves `len` 0 with both further pops returning `none`, and the drained
deque remains usable — a fresh `push` is observed by the next `pop`. -/
theorem C9_iterator (E : Type) :
    (∀ d : Deque E, next d = pop d ∧ next_back d = pop_back d) ∧
    (∀ d : Deque E, Inv d →
      len (popList (len d) d).2 = 0 ∧
      (pop (popList (len d) d).2).1 = none ∧
      (pop_back (popList (len d) d).2).1 = none ∧
      (∀ e : E, (pop (push e (popList (len d) d).2)).1 = some e) ∧
      len (popBackList (len d) d).2 = 0 ∧
      (pop (popBackList (len d) d).2).1 = none ∧
      (pop_back (popBackList (len d) d).2).1 = none) := by
  refine ⟨fun d => ⟨rfl, rfl⟩, ?_⟩
  intro d h
  obtain ⟨l, hrep⟩ := h
  have hlen : len d = l.length := hrep.2.2.2.1
  obtain ⟨_, hrep2⟩ := rep_popList l.length hrep (le_refl _)
  rw [List.drop_length] at hrep2
  obtain ⟨_, hrep3⟩ := rep_popBackList l.length hrep (le_refl _)
  rw [Nat.sub_self, List.take_zero] at hrep3
  rw [hlen]
  refine ⟨?_, ?_, ?_, ?_, ?_, ?_, ?_⟩
  · show (popList l.length d).2.size = 0
    rw [hrep2.2.2.2.1]
    rfl
  · rw [(rep_pop_nil hrep2).1]
  · rw [(rep_pop_back_nil hrep2).1]
  · intro e
    obtain ⟨d3, hpop3, _, _⟩ := rep_pop (rep_push e hrep2)
    rw [hpop3]
  · show (popBackList l.length d).2.size = 0
    rw [hrep3.2.2.2.1]
    rfl
  · rw [(rep_pop_nil hrep3).1]
  · rw [(rep_pop_back_nil hrep3).1]

/-- Witness for C9's drained-deque part at a concrete one-element deque. -/
theorem C9_iterator_witness :
    len (popList (len (push 3 (new : Deque Nat))) (push 3 new)).2 = 0 ∧
    (pop (popList (len (push 3 (new : Deque Nat))) (push 3 new)).2).1
        = none ∧
    (pop_back (popList (len (push 3 (new : Deque Nat))) (push 3 new)).2).1
        = none ∧
    (∀ e : Nat, (pop (push e (popList (len (push 3 (new : Deque Nat)))
        (push 3 new)).2)).1 = some e) ∧
    len (popBackList (len (push 3 (new : Deque Nat))) (push 3 new)).2 = 0 ∧
    (pop (popBackList (len (push 3 (new : Deque Nat))) (push 3 new)).2).1
        = none ∧
    (pop_back (popBackList (len (push 3 (new : Deque Nat)))
        (push 3 new)).2).1 = none :=
  (C9_iterator Nat).2 (push 3 new) ⟨_, rep_push 3 rep_new⟩

/-- Claim C10: in every state reachable from `new` by the public operations,
the strong count of the detached cell at the `Rc::try_unwrap` call inside
`pop` (resp. `pop_back`) is exactly 1, so the `.ok().unwrap()` can never
panic. -/
theorem C10_try_unwrap_safe (E : Type) (d : Deque E) (h : Reachable d) :
    (d.head ≠ none → popUnwrapCount d = some 1) ∧
    (d.tail ≠ none → popBackUnwrapCount d = some 1) ∧
    popPanics d = false ∧ popBackPanics d = false := by
  obtain ⟨l, hrep⟩ := reachable_inv h
  have h1 : (d.head ≠ none → popUnwrapCount d = some 1) ∧
      popPanics d = false := by
    cases l with
    | nil =>
        have hh : d.head = none := hrep.2.1
        refine ⟨fun hc => absurd hh hc, ?_⟩
        unfold popPanics
        rw [(rep_pop_nil hrep).2]
    | cons p l' =>
        obtain ⟨d2, _, _, hcount⟩ := rep_pop hrep
        refine ⟨fun _ => hcount, ?_⟩
        unfold popPanics
        rw [hcount]
        rfl
  have h2 : (d.tail ≠ none → popBackUnwrapCount d = some 1) ∧
      popBackPanics d = false := by
    rcases List.eq_nil_or_concat l with rfl | ⟨l₂, q, hc⟩
    · have ht : d.tail = none := hrep.2.2.1
      refine ⟨fun hcon => absurd ht hcon, ?_⟩
      unfold popBackPanics
      rw [(rep_pop_back_nil hrep).2]
    · rw [hc, List.concat_eq_append] at hrep
      obtain ⟨d2, _, _, hcount⟩ := rep_pop_back hrep
      refine ⟨fun _ => hcount, ?_⟩
      unfold popBackPanics
      rw [hcount]
      rfl
  exact ⟨h1.1, h2.1, h1.2, h2.2⟩

/-- Witness for C10 at a concrete reachable two-element state. -/
theorem C10_try_unwrap_safe_witness :
    popUnwrapCount (push 2 (push 1 (new : Deque Nat))) = some 1 ∧
    popBackUnwrapCount (push 2 (push 1 (new : Deque Nat))) = some 1 :=
  ⟨(C10_try_unwrap_safe Nat _
      (Reachable.pushF 2 (Reachable.pushF 1 Reachable.base))).1 (by decide),
   (C10_try_unwrap_safe Nat _
      (Reachable.pushF 2 (Reachable.pushF 1 Reachable.base))).2.1 (by decide)⟩

end RustDust
